import Mathlib

/-!
Shallow embedding of the GESA archiver core (Huffman codec, LZW codec,
bit stream writer/reader, thread-pool worker loop, container framing),
translated from the C++ sources under src/, together with proofs about
the embedded definitions.

Conventions:
* a byte of a plaintext buffer is a `Fin 256` (the C++ `std::uint8_t`);
* bytes of serialized output are `Nat` values below 256;
* machine integers are `Nat`, with an explicit `% 2 ^ w` exactly where the
  C++ operation can overflow or truncate (the `uint32_t` frequency counters
  of the Huffman metadata, the `uint8_t` accumulator of the bit writer, and
  the `uint32_t` casts in the framer); `std::size_t` / `uint64_t` values
  that the source only ever assigns from in-range quantities are plain `Nat`;
* functions that can `throw std::runtime_error` return `Except String`.
-/

set_option maxRecDepth 10000

abbrev Byte := Fin 256

/-! ## Bit stream writer and reader (src/compression/huffman/bit_stream.cpp) -/

namespace huffman

/-- State of `gesa::compression::huffman::BitWriter`: the flushed output
buffer, the `uint8_t` accumulator `current_` and the bit counter `bitCount_`. -/
structure BitWriter where
  buffer : List Nat
  current : Nat
  bitCount : Nat
deriving DecidableEq

/-- A default-constructed `BitWriter`. -/
def BitWriter.init : BitWriter := ⟨[], 0, 0⟩

/-- `BitWriter::writeBit`: shift the accumulator left by one (as `uint8_t`,
hence the `% 256`), or in the new bit, and flush a full byte. -/
def BitWriter.writeBit (w : BitWriter) (bit : Bool) : BitWriter :=
  let cur := (2 * w.current + (if bit then 1 else 0)) % 256
  if w.bitCount + 1 = 8 then ⟨w.buffer ++ [cur], 0, 0⟩
  else ⟨w.buffer, cur, w.bitCount + 1⟩

/-- `BitWriter::writeCode`: write each bit of a code in order. -/
def BitWriter.writeCode (w : BitWriter) (bits : List Bool) : BitWriter :=
  bits.foldl BitWriter.writeBit w

/-- `BitWriter::finish`: left-shift a partial byte so the written bits occupy
the high positions (zero padding on the low bits), push it, return the buffer. -/
def BitWriter.finish (w : BitWriter) : List Nat :=
  if 0 < w.bitCount then w.buffer ++ [w.current * 2 ^ (8 - w.bitCount) % 256]
  else w.buffer

/-- State of `gesa::compression::huffman::BitReader`: read-only data plus the
byte and bit cursors. -/
structure BitReader where
  data : List Nat
  byteIndex : Nat
  bitIndex : Nat
deriving DecidableEq

/-- `BitReader::readBit`: `none` models the `false` return at end of data;
otherwise the bit is `(data[byteIndex] >> (7 - bitIndex)) & 1` and the
cursors advance. -/
def BitReader.readBit (r : BitReader) : Option (Bool × BitReader) :=
  if r.byteIndex < r.data.length then
    let cur := r.data.getD r.byteIndex 0
    let bit := Nat.testBit cur (7 - r.bitIndex)
    if r.bitIndex + 1 = 8 then some (bit, ⟨r.data, r.byteIndex + 1, 0⟩)
    else some (bit, ⟨r.data, r.byteIndex, r.bitIndex + 1⟩)
  else none

/-- Read `n` bits in sequence with `BitReader::readBit`; `none` if the
reader runs out of data before `n` bits were produced. -/
def readBitsAux : BitReader → Nat → Option (List Bool)
  | _, 0 => some []
  | r, n + 1 =>
    match r.readBit with
    | none => none
    | some (b, r1) =>
      match readBitsAux r1 n with
      | none => none
      | some bs => some (b :: bs)

/-- Read `n` bits from the front of a byte buffer. -/
def readBits (data : List Nat) (n : Nat) : Option (List Bool) :=
  readBitsAux ⟨data, 0, 0⟩ n

/-- The value of a bit sequence read MSB-first (specification-level helper). -/
def packBits (l : List Bool) : Nat :=
  l.foldl (fun a b => 2 * a + (if b then 1 else 0)) 0

/-- The eight bits of a byte value, MSB first (specification-level helper). -/
def byteBits (n : Nat) : List Bool :=
  (List.range 8).map (fun i => n.testBit (7 - i))

/-- All bits of a byte buffer in reading order (specification-level helper). -/
def unpackBytes (data : List Nat) : List Bool :=
  data.flatMap byteBits

/-- Pure recursion mirroring a run of `writeBit` calls: `buf` is the flushed
output so far, `p` the bits pending in the accumulator (`p.length < 8`). -/
def pushAll (buf : List Nat) (p : List Bool) : List Bool → List Nat × List Bool
  | [] => (buf, p)
  | b :: s =>
    if p.length + 1 = 8 then pushAll (buf ++ [packBits (p ++ [b])]) [] s
    else pushAll buf (p ++ [b]) s

/-! ## Huffman codec (src/compression/huffman/codec.cpp) -/

/-- Huffman coding tree. The C++ `Node` uses `symbol = -1` with two non-null
children for internal nodes and a symbol in `0..255` with null children for
leaves; the inductive splits these two shapes. -/
inductive HTree where
  | leaf (symbol : Byte) (frequency : Nat)
  | node (frequency : Nat) (left right : HTree)
deriving DecidableEq

/-- Frequency of a node (`Node::frequency`). -/
def HTree.freqOf : HTree → Nat
  | .leaf _ f => f
  | .node f _ _ => f

/-- Comparator key for `Node::symbol`: `-1` for internal nodes. -/
def HTree.symKey : HTree → Int
  | .leaf s _ => s.val
  | .node _ _ _ => -1

/-- Strict order used by the min-priority queue (`NodePtrComparator`):
ascending frequency, ties broken by ascending symbol (internal nodes,
key `-1`, before leaves of equal frequency). -/
def keyLt (a b : HTree) : Bool :=
  a.freqOf < b.freqOf || (a.freqOf = b.freqOf && a.symKey < b.symKey)

/-- Insert a node into the queue, kept as a list sorted ascending by
`keyLt` (the front of the list is the next node to pop). -/
def insertQueue (t : HTree) : List HTree → List HTree
  | [] => [t]
  | u :: rest => if keyLt t u then t :: u :: rest else u :: insertQueue t rest

/-- Length of the queue after an insertion. -/
theorem insertQueue_length (t : HTree) (l : List HTree) :
    (insertQueue t l).length = l.length + 1 := by
  induction l with
  | nil => rfl
  | cons u rest ih =>
    simp only [insertQueue]
    by_cases h : keyLt t u = true
    · simp [h]
    · simp [h, ih]

/-- The `while (queue.size() > 1)` loop of `buildTree`: pop the two smallest
nodes, push an internal parent, and finish with the last node. -/
def buildLoop : List HTree → Option HTree
  | [] => none
  | [t] => some t
  | a :: b :: rest =>
    buildLoop (insertQueue (HTree.node (a.freqOf + b.freqOf) a b) rest)
termination_by l => l.length
decreasing_by simp [insertQueue_length]

/-- The initial queue of `buildTree`: one leaf per symbol with non-zero
frequency, pushed in ascending symbol order. -/
def buildQueue (freqs : Byte → Nat) : List HTree :=
  ((List.finRange 256).filterMap fun s =>
      if freqs s = 0 then none else some (HTree.leaf s (freqs s))).foldl
    (fun q t => insertQueue t q) []

/-- `buildTree`: `none` models the null root of an all-zero table. -/
def buildTree (freqs : Byte → Nat) : Option HTree :=
  buildLoop (buildQueue freqs)

/-- `buildCodeTable`: depth-first traversal assigning root-to-leaf paths
(`false` = left, `true` = right); a leaf reached with an empty prefix (the
single-leaf root) receives the one-bit code `[false]`. Returned as the
association list of (symbol, code) pairs the traversal writes. -/
def buildCodeTable : HTree → List Bool → List (Byte × List Bool)
  | .leaf s _, pre => [(s, if pre.isEmpty then [false] else pre)]
  | .node _ l r, pre => buildCodeTable l (pre ++ [false]) ++ buildCodeTable r (pre ++ [true])

/-- The code table entry for a byte; `[]` models an empty `bits` vector
(symbol absent from the tree). -/
def codeOf (root : HTree) (b : Byte) : List Bool :=
  ((buildCodeTable root []).lookup b).getD []

/-- The `uint32_t` frequency table counted by `encodeBuffer`: one increment
per occurrence, wrapping at `2 ^ 32`. -/
def frequencyTable (input : List Byte) : Byte → Nat :=
  fun s => input.count s % 2 ^ 32

/-- `HuffmanMetadata`: frequency table plus original size. -/
structure HuffmanMetadata where
  frequencies : Byte → Nat
  originalSize : Nat

/-- `CompressionResult`: metadata plus packed payload. -/
structure CompressionResult where
  metadata : HuffmanMetadata
  compressed : List Nat

/-- One iteration of the encoding loop of `encodeBuffer`: look up the code
of the byte, fail on an empty entry, otherwise write its bits. -/
def encodeStep (root : HTree) (w : BitWriter) (b : Byte) : Except String BitWriter :=
  if (codeOf root b).isEmpty then .error "Invalid Huffman code table entry"
  else .ok (w.writeCode (codeOf root b))

/-- `huffman::encodeBuffer`. Empty input returns the default result; an
all-zero frequency table (null root) returns the metadata with an empty
payload; otherwise each input byte's code is written and the writer is
finished. -/
def encodeBuffer (input : List Byte) : Except String CompressionResult :=
  if input = [] then .ok ⟨⟨fun _ => 0, 0⟩, []⟩
  else
    match buildTree (frequencyTable input) with
    | none => .ok ⟨⟨frequencyTable input, input.length⟩, []⟩
    | some root =>
      (input.foldlM (encodeStep root) BitWriter.init).map
        (fun w => ⟨⟨frequencyTable input, input.length⟩, w.finish⟩)

/-- The decoding loop of `decodeBuffer`: while fewer than `need` symbols are
out, read one bit (end of stream is fatal), step to the chosen child (a step
out of a leaf models the null-child fault), and emit on reaching a leaf. -/
def decodeLoop (root : HTree) : HTree → List Bool → Nat → Except String (List Byte)
  | _, _, 0 => .ok []
  | _, [], _ + 1 => .error "Unexpected end of compressed stream"
  | cur, bit :: rest, n + 1 =>
    match cur with
    | .leaf _ _ => .error "Corrupted Huffman tree traversal"
    | .node _ l r =>
      match (if bit then r else l) with
      | .leaf s _ => (decodeLoop root root rest n).map (fun out => s :: out)
      | .node f cl cr => decodeLoop root (.node f cl cr) rest (n + 1)
termination_by _ bits _ => bits.length

/-- `huffman::decodeBuffer`: empty size returns empty; a null root with
non-zero size is fatal; a single-leaf root emits `originalSize` copies of
its symbol without consulting the bit stream; otherwise the tree is walked
over the payload's bits. -/
def decodeBuffer (md : HuffmanMetadata) (compressed : List Nat) :
    Except String (List Byte) :=
  if md.originalSize = 0 then .ok []
  else
    match buildTree md.frequencies with
    | none => .error "Invalid Huffman metadata: empty tree with non-zero size"
    | some (.leaf s _) => .ok (List.replicate md.originalSize s)
    | some (.node f l r) =>
      decodeLoop (.node f l r) (.node f l r) (unpackBytes compressed) md.originalSize

/-- Walk a tree along a bit path (specification-level helper): `none` when
the path steps out of a leaf before it ends. -/
def followPath : HTree → List Bool → Option HTree
  | t, [] => some t
  | .leaf _ _, _ :: _ => none
  | .node _ l r, bit :: rest => followPath (if bit then r else l) rest

/-- The symbols of the leaves of a tree (specification-level helper). -/
def HTree.syms : HTree → List Byte
  | .leaf s _ => [s]
  | .node _ l r => l.syms ++ r.syms

end huffman

/-! ## LZW codec (src/compression/lzw/codec.cpp) -/

namespace lzw

/-- `kInitialDictionarySize`. -/
def kInitialDictionarySize : Nat := 256

/-- `kMaxDictionarySize`. -/
def kMaxDictionarySize : Nat := 4096

/-- `LZWMetadata`. -/
structure LZWMetadata where
  originalSize : Nat
  dictionarySize : Nat
deriving DecidableEq

/-- `CompressionResult`: metadata plus emitted 12-bit codes. -/
structure CompressionResult where
  metadata : LZWMetadata
  codes : List Nat
deriving DecidableEq

/-- Encoder state inside `encodeBuffer`: the `unordered_map<string,uint16_t>`
as a finite map, the `nextCode` counter, the running `current` string, and
the codes emitted so far. -/
structure EncState where
  dict : List Byte → Option Nat
  nextCode : Nat
  current : List Byte
  codes : List Nat

/-- The preloaded dictionary: every single-byte string maps to its value. -/
def initDict : List Byte → Option Nat :=
  fun w => match w with
  | [b] => some b.val
  | _ => none

/-- The encoder state before the input loop. -/
def encInit : EncState := ⟨initDict, kInitialDictionarySize, [], []⟩

/-- One iteration of the encoder loop: extend `current` on a dictionary hit;
on a miss emit the code of `current` (an empty `current` or a failed
`dictionary.at` is fatal), insert `combined` while below the cap, and
restart `current` at the new byte. -/
def encStep (st : EncState) (b : Byte) : Except String EncState :=
  let combined := st.current ++ [b]
  match st.dict combined with
  | some _ => .ok ⟨st.dict, st.nextCode, combined, st.codes⟩
  | none =>
    if st.current = [] then .error "LZW encoder encountered empty current sequence"
    else
      match st.dict st.current with
      | none => .error "LZW encoder dictionary lookup failed"
      | some c =>
        if st.nextCode < kMaxDictionarySize then
          .ok ⟨fun w => if w = combined then some st.nextCode else st.dict w,
               st.nextCode + 1, [b], st.codes ++ [c]⟩
        else
          .ok ⟨st.dict, st.nextCode, [b], st.codes ++ [c]⟩

/-- `lzw::encodeBuffer`: run the loop, then flush the code of a non-empty
trailing `current`; `dictionarySize` records the final `nextCode`. -/
def encodeBuffer (input : List Byte) : Except String CompressionResult :=
  if input = [] then .ok ⟨⟨0, 0⟩, []⟩
  else
    match input.foldlM encStep encInit with
    | .error e => .error e
    | .ok st =>
      if st.current = [] then .ok ⟨⟨input.length, st.nextCode⟩, st.codes⟩
      else
        match st.dict st.current with
        | none => .error "LZW encoder dictionary lookup failed"
        | some c => .ok ⟨⟨input.length, st.nextCode⟩, st.codes ++ [c]⟩

/-- Decoder state inside `decodeBuffer`: the dense `vector<string>`
dictionary, the `nextCode` counter, the previous entry `current`, and the
output emitted so far. -/
structure DecState where
  dict : List (List Byte)
  nextCode : Nat
  current : List Byte
  output : List Byte

/-- The decoder's preloaded dictionary: 256 single-byte strings. -/
def decInitDict : List (List Byte) :=
  (List.finRange 256).map (fun b => [b])

/-- One iteration of the decoder loop on code `c`: resolve the entry
(dictionary hit, the `c == nextCode` cScSc case, or a fatal invalid code),
emit it, append `current + entry.front()` while below the cap, and set
`current := entry`. `front()` on the never-empty strings is `headD 0`. -/
def decStep (st : DecState) (c : Nat) : Except String DecState :=
  if c < st.dict.length then
    let entry := st.dict.getD c []
    if st.nextCode < kMaxDictionarySize then
      .ok ⟨st.dict ++ [st.current ++ [entry.headD 0]], st.nextCode + 1, entry,
           st.output ++ entry⟩
    else
      .ok ⟨st.dict, st.nextCode, entry, st.output ++ entry⟩
  else if c = st.nextCode then
    let entry := st.current ++ [st.current.headD 0]
    if st.nextCode < kMaxDictionarySize then
      .ok ⟨st.dict ++ [st.current ++ [entry.headD 0]], st.nextCode + 1, entry,
           st.output ++ entry⟩
    else
      .ok ⟨st.dict, st.nextCode, entry, st.output ++ entry⟩
  else .error "Invalid LZW code encountered during decoding"

/-- `std::vector::resize` on a byte vector: truncate, or extend with zero
bytes. -/
def resizeTo (l : List Byte) (n : Nat) : List Byte :=
  l.take n ++ List.replicate (n - l.length) (0 : Byte)

/-- `lzw::decodeBuffer`: empty size returns empty; an empty code stream for a
non-empty file and an out-of-range first code are fatal; otherwise the first
code seeds `current`/output, the loop processes the remaining codes, and the
output is resized to `originalSize` when its length differs. -/
def decodeBuffer (md : LZWMetadata) (codes : List Nat) : Except String (List Byte) :=
  if md.originalSize = 0 then .ok []
  else
    match codes with
    | [] => .error "LZW decoder received empty code stream for non-empty file"
    | c0 :: rest =>
      if c0 < decInitDict.length then
        match rest.foldlM decStep ⟨decInitDict, kInitialDictionarySize,
            decInitDict.getD c0 [], decInitDict.getD c0 []⟩ with
        | .error e => .error e
        | .ok st =>
          if st.output.length = md.originalSize then .ok st.output
          else .ok (resizeTo st.output md.originalSize)
      else .error "Invalid first LZW code"

end lzw

/-! ## Thread pool worker loop (src/concurrency/thread_pool.cpp) -/

namespace concurrency

/-- Shared pool state seen by `ThreadPool::workerLoop`: the task queue
(front first), the `stop_` flag, and the history of tasks the workers have
executed, in execution order. -/
structure PoolState (τ : Type) where
  tasks : List τ
  stop : Bool
  executed : List τ
deriving DecidableEq

/-- Run the worker loop to quiescence. Each iteration passes the condition
variable wait (which requires `stop ∨ tasks ≠ []`); the loop returns only
when `stop ∧ tasks = []`, otherwise it dequeues the front task and executes
it. With an empty queue and `stop = false` the worker blocks in the wait and
makes no further transition, so both empty-queue cases are terminal states. -/
def workerRun {τ : Type} : PoolState τ → PoolState τ
  | ⟨[], st, ex⟩ => ⟨[], st, ex⟩
  | ⟨t :: rest, st, ex⟩ => workerRun ⟨rest, st, ex ++ [t]⟩
termination_by s => s.tasks.length

end concurrency

/-! ## Container framing (src/compression/huffman/archive.cpp,
src/compression/lzw/archive.cpp, and the serialization phase of
`compressDirectory` in src/compression/huffman.cpp / lzw.cpp) -/

/-- Little-endian serialization of the low `width` bytes of a value: the
bytes `writeValue` emits for a `width`-byte unsigned integer (a cast from a
wider value keeps exactly the low `8 * width` bits, as this does). -/
def leBytes (width value : Nat) : List Nat :=
  (List.range width).map (fun i => value / 256 ^ i % 256)

/-- The value a little-endian byte sequence denotes. -/
def fromLE (bytes : List Nat) : Nat :=
  bytes.foldr (fun b acc => b + 256 * acc) 0

namespace huffman

/-- `kFileMagic` = "GHUF". -/
def kFileMagic : List Nat := [71, 72, 85, 70]

/-- `kArchiveMagic` = "GHAR". -/
def kArchiveMagic : List Nat := [71, 72, 65, 82]

/-- `kFormatVersion`. -/
def kFormatVersion : Nat := 1

/-- The 256 frequency entries, each as four little-endian bytes. -/
def frequencyBytes (md : HuffmanMetadata) : List Nat :=
  (List.finRange 256).flatMap (fun s => leBytes 4 (md.frequencies s))

/-- `huffman::writeFileHeader`: magic, version, 3 zero padding bytes,
`originalSize` (u64), `compressedSize` (u64), the frequency table. -/
def writeFileHeader (md : HuffmanMetadata) (compressedSize : Nat) : List Nat :=
  kFileMagic ++ [kFormatVersion] ++ [0, 0, 0] ++ leBytes 8 md.originalSize ++
    leBytes 8 compressedSize ++ frequencyBytes md

/-- The single-file container `compressFile` writes: file header followed by
the compressed payload. -/
def fileBytes (md : HuffmanMetadata) (payload : List Nat) : List Nat :=
  writeFileHeader md payload.length ++ payload

/-- `huffman::writeArchiveHeader`: magic, version, 3 zero padding bytes,
`fileCount` written as a `uint32_t`. -/
def writeArchiveHeader (fileCount : Nat) : List Nat :=
  kArchiveMagic ++ [kFormatVersion] ++ [0, 0, 0] ++ leBytes 4 fileCount

/-- `huffman::ArchiveEntry`: generic-form relative path (as its UTF-8
bytes) plus the per-file compression result. -/
structure ArchiveEntry where
  relativePath : List Nat
  result : CompressionResult

/-- `huffman::writeArchiveEntry`: guard against a path longer than a
`uint32_t` can describe, then path size, path bytes, `originalSize`,
`compressedSize`, frequency table, payload. -/
def writeArchiveEntry (e : ArchiveEntry) : Except String (List Nat) :=
  if 2 ^ 32 - 1 < e.relativePath.length then
    .error "Relative path exceeds maximum supported length"
  else
    .ok (leBytes 4 e.relativePath.length ++ e.relativePath ++
      leBytes 8 e.result.metadata.originalSize ++
      leBytes 8 e.result.compressed.length ++
      frequencyBytes e.result.metadata ++ e.result.compressed)

/-- The serialization phase of `huffman::compressDirectory`: archive header
with `fileCount = static_cast<uint32_t>(compressedEntries.size())`, then one
frame per collected entry, in order. -/
def archiveBytes (entries : List ArchiveEntry) : Except String (List Nat) :=
  match entries.mapM writeArchiveEntry with
  | .error e => .error e
  | .ok frames => .ok (writeArchiveHeader entries.length ++ frames.flatten)

end huffman

namespace lzw

/-- `kFileMagic` = "GLZW". -/
def kFileMagic : List Nat := [71, 76, 90, 87]

/-- `kArchiveMagic` = "GLZA". -/
def kArchiveMagic : List Nat := [71, 76, 90, 65]

/-- `kFormatVersion`. -/
def kFormatVersion : Nat := 1

/-- `lzw::writeFileHeader`: magic, version, 3 zero padding bytes,
`originalSize` (u64), `dictionarySize` (u16), `codeCount` (u64). -/
def writeFileHeader (md : LZWMetadata) (codeCount : Nat) : List Nat :=
  kFileMagic ++ [kFormatVersion] ++ [0, 0, 0] ++ leBytes 8 md.originalSize ++
    leBytes 2 md.dictionarySize ++ leBytes 8 codeCount

/-- The single-file container `compressFile` writes: file header followed by
the codes, each as a little-endian `uint16_t`. -/
def fileBytes (md : LZWMetadata) (codes : List Nat) : List Nat :=
  writeFileHeader md codes.length ++ codes.flatMap (leBytes 2)

/-- `lzw::writeArchiveHeader`: magic, version, 3 zero padding bytes,
`fileCount` written as a `uint32_t`. -/
def writeArchiveHeader (fileCount : Nat) : List Nat :=
  kArchiveMagic ++ [kFormatVersion] ++ [0, 0, 0] ++ leBytes 4 fileCount

/-- `lzw::ArchiveEntry`: relative path bytes, metadata and codes. -/
structure ArchiveEntry where
  relativePath : List Nat
  metadata : LZWMetadata
  codes : List Nat

/-- `lzw::writeArchiveEntry`: path length guard, then path size, path bytes,
`originalSize`, `dictionarySize`, `codeCount`, the codes as u16 LE pairs. -/
def writeArchiveEntry (e : ArchiveEntry) : Except String (List Nat) :=
  if 2 ^ 32 - 1 < e.relativePath.length then
    .error "Relative path exceeds maximum supported length"
  else
    .ok (leBytes 4 e.relativePath.length ++ e.relativePath ++
      leBytes 8 e.metadata.originalSize ++ leBytes 2 e.metadata.dictionarySize ++
      leBytes 8 e.codes.length ++ e.codes.flatMap (leBytes 2))

/-- The serialization phase of `lzw::compressDirectory`: archive header with
the `uint32_t` cast of the entry count, then one frame per entry. -/
def archiveBytes (entries : List ArchiveEntry) : Except String (List Nat) :=
  match entries.mapM writeArchiveEntry with
  | .error e => .error e
  | .ok frames => .ok (writeArchiveHeader entries.length ++ frames.flatten)

end lzw

namespace lzw

/-- The codebook shared by encoder and decoder (specification-level helper):
the decoder's dense dictionary, plus — while the encoder is one insertion
ahead of the decoder — the one entry the encoder has inserted that the
decoder has not reconstructed yet (`current_D + head(current_E)`). -/
def fullDict (e : EncState) (d : DecState) : List (List Byte) :=
  d.dict ++ (if e.nextCode = d.nextCode + 1
    then [d.current ++ [e.current.headD 0]] else [])

/-- Coupling invariant between the LZW encoder state (mid input loop, after
at least one emission) and the decoder state after consuming exactly the
codes emitted so far (specification-level helper). -/
structure Coupled (e : EncState) (d : DecState) : Prop where
  encCur_ne : e.current ≠ []
  decCur_ne : d.current ≠ []
  dictD_ne : ∀ w ∈ d.dict, w ≠ []
  len_eq : d.dict.length = d.nextCode
  counters : (e.nextCode = d.nextCode + 1 ∧ e.nextCode ≤ kMaxDictionarySize) ∨
    (e.nextCode = kMaxDictionarySize ∧ d.nextCode = kMaxDictionarySize)
  lookup_iff : ∀ (w : List Byte) (c : Nat),
    e.dict w = some c ↔ (fullDict e d)[c]? = some w
  singles : ∀ b : Byte, e.dict [b] = some b.val
  cur_mem : ∃ c, e.dict e.current = some c

end lzw

/-! ## Proofs: thread pool shutdown (claim C4) -/

namespace concurrency

/-- Running the worker loop empties the queue and appends every queued task,
in queue order, to the execution history. -/
theorem workerRun_spec {τ : Type} (q : List τ) :
    ∀ (st : Bool) (ex : List τ), workerRun ⟨q, st, ex⟩ = ⟨[], st, ex ++ q⟩ := by
  induction q with
  | nil => intro st ex; simp [workerRun]
  | cons t rest ih =>
    intro st ex
    rw [workerRun, ih]
    simp

end concurrency

/-- C4 counterexample: with `stop_` set and one task still in the queue, the
worker loop dequeues and EXECUTES that task before exiting (the loop returns
only when `stop_ && tasks_.empty()`), so a task still queued at shutdown is
not "removed without being executed" — its future is satisfied by execution. -/
theorem thread_pool_drain_counterexample :
    concurrency.workerRun ⟨[(0 : Nat)], true, []⟩ =
      (⟨[], true, [0]⟩ : concurrency.PoolState Nat) ∧
    ([0] : List Nat) ≠ [] := by
  constructor
  · exact concurrency.workerRun_spec [0] true []
  · simp

/-- C4 (amended): when the destructor sets `stop_` and the workers run to
exit, every task still sitting in the queue is dequeued and executed, in
queue order, before the workers return; the queue ends empty. -/
theorem thread_pool_shutdown_executes_queued {τ : Type} (q ex : List τ) :
    concurrency.workerRun ⟨q, true, ex⟩ = ⟨[], true, ex ++ q⟩ :=
  concurrency.workerRun_spec q true ex

/-! ## Proofs: bit stream writer/reader (claim C6) -/

namespace huffman

/-- The packed value of a bit list, started from accumulator `a`. -/
theorem packBits_foldl (p : List Bool) :
    ∀ a : Nat, p.foldl (fun x b => 2 * x + (if b then 1 else 0)) a =
      a * 2 ^ p.length + packBits p := by
  induction p with
  | nil => intro a; simp [packBits]
  | cons b p ih =>
    intro a
    simp only [List.foldl_cons, packBits, List.length_cons]
    rw [ih, ih (2 * 0 + if b then 1 else 0)]
    ring

/-- A packed bit list is below `2 ^ length`. -/
theorem packBits_lt (p : List Bool) : packBits p < 2 ^ p.length := by
  induction p with
  | nil => simp [packBits]
  | cons b p ih =>
    have h : packBits (b :: p) = (2 * 0 + if b then 1 else 0) * 2 ^ p.length + packBits p := by
      simp only [packBits, List.foldl_cons]
      exact packBits_foldl p _
    have hb : (2 * 0 + if b then 1 else 0) ≤ 1 := by cases b <;> simp
    have hmul : (2 * 0 + if b then 1 else 0) * 2 ^ p.length ≤ 2 ^ p.length := by
      simpa using Nat.mul_le_mul_right (2 ^ p.length) hb
    have hpow : (2 : Nat) ^ (b :: p).length = 2 ^ p.length + 2 ^ p.length := by
      simp only [List.length_cons]
      ring
    omega

/-- Appending one bit doubles the packed value and adds the bit. -/
theorem packBits_append_bit (p : List Bool) (b : Bool) :
    packBits (p ++ [b]) = 2 * packBits p + (if b then 1 else 0) := by
  simp [packBits, List.foldl_append]

/-- Appending `k` zero bits multiplies the packed value by `2 ^ k`. -/
theorem packBits_append_falses (p : List Bool) (k : Nat) :
    packBits (p ++ List.replicate k false) = packBits p * 2 ^ k := by
  induction k with
  | zero => simp
  | succ k ih =>
    have hsplit : p ++ List.replicate (k + 1) false =
        (p ++ List.replicate k false) ++ [false] := by
      simp [List.replicate_succ' k]
    rw [hsplit, packBits_append_bit, ih]
    show 2 * (packBits p * 2 ^ k) + 0 = packBits p * 2 ^ (k + 1)
    ring

/-- A byte has eight bits. -/
theorem length_byteBits (n : Nat) : (byteBits n).length = 8 := by
  simp [byteBits]

/-- Unpacking distributes over buffer concatenation. -/
theorem unpackBytes_append (a b : List Nat) :
    unpackBytes (a ++ b) = unpackBytes a ++ unpackBytes b := by
  simp [unpackBytes]

/-- The bit count of an unpacked buffer. -/
theorem length_unpackBytes (data : List Nat) :
    (unpackBytes data).length = 8 * data.length := by
  induction data with
  | nil => rfl
  | cons d rest ih =>
    simp only [unpackBytes, List.flatMap_cons] at *
    simp [ih, length_byteBits]
    omega

/-- Unpacking a packed eight-bit list recovers it. -/
theorem byteBits_packBits (c : List Bool) (h : c.length = 8) :
    byteBits (packBits c) = c := by
  cases c with
  | nil => simp at h
  | cons b0 c =>
  cases c with
  | nil => simp at h
  | cons b1 c =>
  cases c with
  | nil => simp at h
  | cons b2 c =>
  cases c with
  | nil => simp at h
  | cons b3 c =>
  cases c with
  | nil => simp at h
  | cons b4 c =>
  cases c with
  | nil => simp at h
  | cons b5 c =>
  cases c with
  | nil => simp at h
  | cons b6 c =>
  cases c with
  | nil => simp at h
  | cons b7 c =>
  cases c with
  | cons b8 c =>
    simp only [List.length_cons] at h
    omega
  | nil =>
    revert b0 b1 b2 b3 b4 b5 b6 b7
    decide

/-- A run of `writeBit` calls from an in-invariant writer state is the pure
`pushAll` recursion: the accumulator always holds the packed pending bits. -/
theorem writeCode_pushAll (s : List Bool) :
    ∀ (buf : List Nat) (p : List Bool), p.length < 8 →
      BitWriter.writeCode ⟨buf, packBits p, p.length⟩ s =
        ⟨(pushAll buf p s).1, packBits (pushAll buf p s).2, (pushAll buf p s).2.length⟩ := by
  induction s with
  | nil => intro buf p _; rfl
  | cons b s ih =>
    intro buf p hp
    have hcur : (2 * packBits p + if b then 1 else 0) % 256 = packBits (p ++ [b]) := by
      have hlt : 2 * packBits p + (if b then 1 else 0) < 256 := by
        have h1 := packBits_lt p
        have h2 : (if b then 1 else 0) ≤ 1 := by cases b <;> simp
        have h3 : 2 ^ p.length ≤ 2 ^ 7 := Nat.pow_le_pow_right (by omega) (by omega)
        have h4 : (2 : Nat) ^ 7 = 128 := by norm_num
        omega
      rw [Nat.mod_eq_of_lt hlt, packBits_append_bit]
    show BitWriter.writeCode
        (BitWriter.writeBit ⟨buf, packBits p, p.length⟩ b) s = _
    by_cases h8 : p.length + 1 = 8
    · have hw : BitWriter.writeBit ⟨buf, packBits p, p.length⟩ b =
          ⟨buf ++ [packBits (p ++ [b])], 0, 0⟩ := by
        simp only [BitWriter.writeBit, hcur, if_pos h8]
      rw [hw]
      have hstep := ih (buf ++ [packBits (p ++ [b])]) [] (by simp)
      simp only [show packBits [] = 0 from rfl,
        show ([] : List Bool).length = 0 from rfl] at hstep
      rw [hstep]
      simp [pushAll, h8]
    · have hw : BitWriter.writeBit ⟨buf, packBits p, p.length⟩ b =
          ⟨buf, packBits (p ++ [b]), p.length + 1⟩ := by
        simp only [BitWriter.writeBit, hcur, if_neg h8]
      rw [hw]
      have hstep := ih buf (p ++ [b]) (by simp; omega)
      simp only [show (p ++ [b]).length = p.length + 1 by simp] at hstep
      rw [hstep]
      simp [pushAll, h8]

/-- The pending bits of `pushAll` stay below eight. -/
theorem pushAll_snd_lt (s : List Bool) :
    ∀ (buf : List Nat) (p : List Bool), p.length < 8 → ((pushAll buf p s).2).length < 8 := by
  induction s with
  | nil => intro buf p hp; exact hp
  | cons b s ih =>
    intro buf p hp
    simp only [pushAll]
    by_cases h8 : p.length + 1 = 8
    · simp only [h8, if_true]
      exact ih _ [] (by simp)
    · simp only [h8, if_false]
      exact ih _ (p ++ [b]) (by simp; omega)

/-- `pushAll` conserves the bit stream: flushed bytes unpack to the bits
written, in order, followed by the pending bits. -/
theorem pushAll_unpack (s : List Bool) :
    ∀ (buf : List Nat) (p : List Bool), p.length < 8 →
      unpackBytes (pushAll buf p s).1 ++ (pushAll buf p s).2 =
        unpackBytes buf ++ p ++ s := by
  induction s with
  | nil => intro buf p _; simp [pushAll]
  | cons b s ih =>
    intro buf p hp
    simp only [pushAll]
    by_cases h8 : p.length + 1 = 8
    · simp only [h8, if_true]
      rw [ih _ [] (by simp)]
      have hbyte : byteBits (packBits (p ++ [b])) = p ++ [b] :=
        byteBits_packBits _ (by simp; omega)
      rw [unpackBytes_append]
      have hone : unpackBytes [packBits (p ++ [b])] = p ++ [b] := by
        simp [unpackBytes, hbyte]
      rw [hone]
      simp
    · simp only [h8, if_false]
      rw [ih _ (p ++ [b]) (by simp; omega)]
      simp

/-- Characterization of the finished buffer of a writer run: the bits
written, in order, followed by zero padding to the next byte boundary. -/
theorem finish_unpack (s : List Bool) :
    unpackBytes (BitWriter.finish (BitWriter.writeCode BitWriter.init s)) =
      s ++ List.replicate ((8 - s.length % 8) % 8) false := by
  have h0 : (BitWriter.init : BitWriter) = ⟨[], packBits [], ([] : List Bool).length⟩ := rfl
  rw [h0, writeCode_pushAll s [] [] (by simp)]
  have hsnd := pushAll_snd_lt s [] [] (by simp)
  have hunp := pushAll_unpack s [] [] (by simp)
  rw [show unpackBytes [] = [] from rfl] at hunp
  simp only [List.nil_append] at hunp
  have hlen : s.length = 8 * (pushAll [] [] s).1.length + ((pushAll [] [] s).2).length := by
    have hcg := congrArg List.length hunp
    simp only [List.length_append, length_unpackBytes] at hcg
    omega
  by_cases hz : ((pushAll [] [] s).2).length = 0
  · have hemp : (pushAll [] [] s).2 = [] := List.length_eq_zero.mp hz
    have hmod : s.length % 8 = 0 := by omega
    have hflat : unpackBytes (pushAll [] [] s).1 = s := by
      rw [hemp] at hunp
      simpa using hunp
    simp [BitWriter.finish, hz, hmod, hflat]
  · simp only [BitWriter.finish, if_pos (by omega : 0 < ((pushAll [] [] s).2).length)]
    set p2 := (pushAll [] [] s).2 with hp2
    have hpadbyte : packBits p2 * 2 ^ (8 - p2.length) % 256 =
        packBits (p2 ++ List.replicate (8 - p2.length) false) := by
      rw [packBits_append_falses]
      have h1 := packBits_lt p2
      have hk : 0 < 2 ^ (8 - p2.length) := Nat.pos_pow_of_pos _ (by omega)
      have h2 : packBits p2 * 2 ^ (8 - p2.length) < 2 ^ p2.length * 2 ^ (8 - p2.length) :=
        (Nat.mul_lt_mul_right hk).mpr h1
      have hpow : (2 : Nat) ^ p2.length * 2 ^ (8 - p2.length) = 256 := by
        rw [← pow_add]
        have harith : p2.length + (8 - p2.length) = 8 := by omega
        rw [harith]
        norm_num
      rw [Nat.mod_eq_of_lt (by omega)]
    rw [unpackBytes_append, hpadbyte]
    have hfull : (p2 ++ List.replicate (8 - p2.length) false).length = 8 := by
      simp
      omega
    have hbyte := byteBits_packBits _ hfull
    have hone : unpackBytes [packBits (p2 ++ List.replicate (8 - p2.length) false)] =
        p2 ++ List.replicate (8 - p2.length) false := by
      simp [unpackBytes, hbyte]
    rw [hone]
    have hmod : s.length % 8 = p2.length := by omega
    have hpad : (8 - s.length % 8) % 8 = 8 - p2.length := by omega
    rw [hpad, ← List.append_assoc, hunp]

/-- The bit at linear position `8 * i + j` of an unpacked buffer is bit
`7 - j` of byte `i`, and dropping up to it then steps one bit at a time. -/
theorem unpackBytes_drop_step (data : List Nat) :
    ∀ (i j : Nat), i < data.length → j < 8 →
      (unpackBytes data).drop (8 * i + j) =
        Nat.testBit (data.getD i 0) (7 - j) :: (unpackBytes data).drop (8 * i + j + 1) := by
  induction data with
  | nil => intro i j hi _; simp at hi
  | cons d rest ih =>
    intro i j hi hj
    cases i with
    | zero =>
      have hsplit : unpackBytes (d :: rest) = byteBits d ++ unpackBytes rest := by
        simp [unpackBytes]
      have hjlen : j < (byteBits d).length := by rw [length_byteBits]; omega
      have hjlen1 : j + 1 ≤ (byteBits d).length := by rw [length_byteBits]; omega
      rw [hsplit]
      rw [List.drop_append_of_le_length (by omega : 8 * 0 + j ≤ (byteBits d).length)]
      rw [List.drop_append_of_le_length (by omega : 8 * 0 + j + 1 ≤ (byteBits d).length)]
      have hd : (byteBits d).drop (8 * 0 + j) =
          (byteBits d)[8 * 0 + j] :: (byteBits d).drop (8 * 0 + j + 1) :=
        List.drop_eq_getElem_cons (by omega)
      rw [hd]
      have hget : (byteBits d)[8 * 0 + j] = Nat.testBit d (7 - j) := by
        simp [byteBits]
      rw [hget]
      simp [List.getD]
    | succ i =>
      have hsplit : unpackBytes (d :: rest) = byteBits d ++ unpackBytes rest := by
        simp [unpackBytes]
      have h1 : 8 * (i + 1) + j = (byteBits d).length + (8 * i + j) := by
        rw [length_byteBits]; omega
      rw [hsplit, h1]
      rw [show (byteBits d).length + (8 * i + j) + 1 =
        (byteBits d).length + (8 * i + j + 1) by omega]
      rw [List.drop_append, List.drop_append]
      have hgd : (d :: rest).getD (i + 1) 0 = rest.getD i 0 := by simp [List.getD]
      rw [hgd]
      exact ih i j (by simpa using hi) hj

/-- Reading `n` bits with the bit reader from cursor `(i, j)` produces the
`n` bits of the unpacked buffer starting at linear position `8 * i + j`. -/
theorem readBitsAux_unpack (n : Nat) :
    ∀ (data : List Nat) (i j : Nat), j < 8 → 8 * i + j + n ≤ 8 * data.length →
      readBitsAux ⟨data, i, j⟩ n =
        some (((unpackBytes data).drop (8 * i + j)).take n) := by
  induction n with
  | zero => intro data i j _ _; simp [readBitsAux]
  | succ n ih =>
    intro data i j hj hle
    have hi : i < data.length := by omega
    have hstep := unpackBytes_drop_step data i j hi hj
    by_cases h8 : j + 1 = 8
    · have hrb : BitReader.readBit ⟨data, i, j⟩ =
          some (Nat.testBit (data.getD i 0) (7 - j), ⟨data, i + 1, 0⟩) := by
        simp [BitReader.readBit, hi, h8]
      rw [readBitsAux, hrb]
      have hnext := ih data (i + 1) 0 (by omega) (by omega)
      rw [show 8 * (i + 1) + 0 = 8 * i + j + 1 by omega] at hnext
      show (match readBitsAux ⟨data, i + 1, 0⟩ n with
            | none => none
            | some bs => some ((data.getD i 0).testBit (7 - j) :: bs)) = _
      rw [hnext, hstep]
      simp
    · have hrb : BitReader.readBit ⟨data, i, j⟩ =
          some (Nat.testBit (data.getD i 0) (7 - j), ⟨data, i, j + 1⟩) := by
        simp [BitReader.readBit, hi, h8]
      rw [readBitsAux, hrb]
      have hnext := ih data i (j + 1) (by omega) (by omega)
      rw [show 8 * i + (j + 1) = 8 * i + j + 1 by omega] at hnext
      show (match readBitsAux ⟨data, i, j + 1⟩ n with
            | none => none
            | some bs => some ((data.getD i 0).testBit (7 - j) :: bs)) = _
      rw [hnext, hstep]
      simp

end huffman

/-- C6: bit I/O round-trip. For every bit sequence `s`, writing `s` with
`BitWriter::writeBit`, calling `finish()`, and reading `s.length` bits back
with `BitReader::readBit` yields exactly `s`; moreover the produced bytes
hold the bits MSB-first with the final partial byte zero-padded on the low
bits. -/
theorem bit_io_roundtrip (s : List Bool) :
    huffman.readBits
        (huffman.BitWriter.finish (huffman.BitWriter.writeCode huffman.BitWriter.init s))
        s.length = some s ∧
    huffman.unpackBytes
        (huffman.BitWriter.finish (huffman.BitWriter.writeCode huffman.BitWriter.init s)) =
      s ++ List.replicate ((8 - s.length % 8) % 8) false := by
  have hu := huffman.finish_unpack s
  refine ⟨?_, hu⟩
  rw [huffman.readBits]
  have hlen : s.length ≤ 8 *
      (huffman.BitWriter.finish (huffman.BitWriter.writeCode huffman.BitWriter.init s)).length := by
    have hcg := congrArg List.length hu
    rw [huffman.length_unpackBytes] at hcg
    simp only [List.length_append] at hcg
    omega
  rw [huffman.readBitsAux_unpack s.length _ 0 0 (by omega) (by omega)]
  rw [show 8 * 0 + 0 = 0 from rfl, List.drop_zero, hu]
  rw [List.take_left]

/-! ## Proofs: container framing (claim C8) -/

/-- `leBytes` always produces `width` bytes. -/
theorem leBytes_length (width value : Nat) : (leBytes width value).length = width := by
  simp [leBytes]

/-- Reading back a little-endian serialization gives the value modulo
`256 ^ width`. -/
theorem fromLE_leBytes (width : Nat) :
    ∀ value : Nat, fromLE (leBytes width value) = value % 256 ^ width := by
  induction width with
  | zero =>
    intro v
    simp [leBytes, fromLE]
    omega
  | succ w ih =>
    intro v
    have hsplit : leBytes (w + 1) v = (v % 256) :: leBytes w (v / 256) := by
      simp only [leBytes, List.range_succ_eq_map, List.map_cons, List.map_map]
      congr 1
      · norm_num
      · apply List.map_congr_left
        intro i _
        simp only [Function.comp]
        rw [Nat.div_div_eq_div_mul]
        congr 1
        rw [pow_succ, Nat.mul_comm]
    rw [hsplit]
    show v % 256 + 256 * fromLE (leBytes w (v / 256)) = v % 256 ^ (w + 1)
    rw [ih]
    rw [show (256 : Nat) ^ (w + 1) = 256 * 256 ^ w by rw [pow_succ, Nat.mul_comm]]
    rw [Nat.mod_mul]

/-- Taking the first four elements of a four-element prefix. -/
theorem take_four_append (l rest : List Nat) (h : l.length = 4) :
    (l ++ rest).take 4 = l := by
  rw [← h, List.take_left]

/-- A successful `mapM` preserves the length. -/
theorem mapM_ok_length {α β : Type} (f : α → Except String β) :
    ∀ (l : List α) (l2 : List β), l.mapM f = .ok l2 → l2.length = l.length := by
  intro l
  induction l with
  | nil =>
    intro l2 h
    simp only [List.mapM_nil, pure] at h
    cases h
    rfl
  | cons a rest ih =>
    intro l2 h
    simp only [List.mapM_cons] at h
    cases hfa : f a with
    | error e => rw [hfa] at h; simp [Bind.bind, Except.bind] at h
    | ok b =>
      rw [hfa] at h
      cases hrest : rest.mapM f with
      | error e =>
        rw [hrest] at h
        simp [Bind.bind, Except.bind, pure, Except.pure] at h
      | ok bs =>
        rw [hrest] at h
        simp only [Bind.bind, Except.bind, pure, Except.pure] at h
        cases h
        simp [ih bs hrest]

/-- `mapM` over `replicate` of a succeeding element. -/
theorem mapM_replicate_ok {α β : Type} (f : α → Except String β) (a : α) (b : β)
    (hfa : f a = .ok b) :
    ∀ n : Nat, (List.replicate n a).mapM f = .ok (List.replicate n b) := by
  intro n
  induction n with
  | zero => rfl
  | succ n ih =>
    rw [List.replicate_succ, List.mapM_cons, hfa, ih]
    simp [Bind.bind, Except.bind, pure, Except.pure, List.replicate_succ]

/-- Element 4 (the version byte) of a container that starts with a 4-byte
magic followed by the version. -/
theorem getD_four_after (l : List Nat) (v : Nat) (rest : List Nat) (h : l.length = 4) :
    (l ++ (v :: rest)).getD 4 0 = v := by
  rw [List.getD_eq_getElem?_getD, List.getElem?_append_right (by omega)]
  simp [h]

/-- Dropping an 8-byte prefix split as 4 + 1 + 3 bytes. -/
theorem drop_eight_parts (a b c rest : List Nat)
    (ha : a.length = 4) (hb : b.length = 1) (hc : c.length = 3) :
    (a ++ (b ++ (c ++ rest))).drop 8 = rest := by
  rw [show (8 : Nat) = a.length + 4 by omega, List.drop_append]
  rw [show (4 : Nat) = b.length + 3 by omega, List.drop_append]
  rw [show (3 : Nat) = c.length + 0 by omega, List.drop_append]
  rfl

/-- C8 counterexample: an archive serialized from `2 ^ 32` entries stores
`fileCount = 0` (the `uint32_t` cast wraps), so the field does not equal the
number of entry frames that follow. -/
theorem framing_filecount_counterexample :
    ∃ bytes : List Nat,
      huffman.archiveBytes
          (List.replicate (2 ^ 32) (huffman.ArchiveEntry.mk [] ⟨⟨fun _ => 0, 0⟩, []⟩)) =
        .ok bytes ∧
      fromLE ((bytes.drop 8).take 4) ≠
        (List.replicate (2 ^ 32) (huffman.ArchiveEntry.mk [] ⟨⟨fun _ => 0, 0⟩, []⟩)).length := by
  have hF : huffman.writeArchiveEntry (huffman.ArchiveEntry.mk [] ⟨⟨fun _ => 0, 0⟩, []⟩) =
      .ok (leBytes 4 (0 : Nat) ++ [] ++ leBytes 8 0 ++ leBytes 8 0 ++
        huffman.frequencyBytes ⟨fun _ => 0, 0⟩ ++ []) := rfl
  have hmap := mapM_replicate_ok huffman.writeArchiveEntry _ _ hF (2 ^ 32)
  refine ⟨huffman.writeArchiveHeader (List.replicate (2 ^ 32)
      (huffman.ArchiveEntry.mk [] ⟨⟨fun _ => 0, 0⟩, []⟩)).length ++
      (List.replicate (2 ^ 32) (leBytes 4 (0 : Nat) ++ [] ++ leBytes 8 0 ++ leBytes 8 0 ++
        huffman.frequencyBytes ⟨fun _ => 0, 0⟩ ++ [])).flatten, ?_, ?_⟩
  · rw [huffman.archiveBytes, hmap]
  · rw [List.length_replicate]
    have hdrop : ((huffman.writeArchiveHeader (2 ^ 32) ++
        (List.replicate (2 ^ 32) (leBytes 4 (0 : Nat) ++ [] ++ leBytes 8 0 ++ leBytes 8 0 ++
          huffman.frequencyBytes ⟨fun _ => 0, 0⟩ ++ [])).flatten).drop 8) =
        leBytes 4 (2 ^ 32) ++ (List.replicate (2 ^ 32) (leBytes 4 (0 : Nat) ++ [] ++
          leBytes 8 0 ++ leBytes 8 0 ++
          huffman.frequencyBytes ⟨fun _ => 0, 0⟩ ++ [])).flatten := by
      rw [huffman.writeArchiveHeader]
      rw [List.append_assoc, List.append_assoc, List.append_assoc]
      exact drop_eight_parts huffman.kArchiveMagic [huffman.kFormatVersion] [0, 0, 0] _
        rfl rfl rfl
    rw [hdrop, take_four_append _ _ (leBytes_length 4 _), fromLE_leBytes]
    norm_num

/-- C8 (amended): every container the framer produces begins with the 4-byte
magic of its kind and its version byte equals 1, unconditionally; whenever
the archive was assembled from fewer than `2 ^ 32` entries (the `uint32_t`
cast wraps beyond that), the `fileCount` field additionally equals the
number of entry frames that follow. -/
theorem framing_invariants_of_lt
    (hmd : huffman.HuffmanMetadata) (hpayload : List Nat)
    (lmd : lzw.LZWMetadata) (lcodes : List Nat)
    (hes : List huffman.ArchiveEntry) (les : List lzw.ArchiveEntry)
    (hbytes lbytes : List Nat)
    (hok : huffman.archiveBytes hes = .ok hbytes)
    (lok : lzw.archiveBytes les = .ok lbytes) :
    (huffman.fileBytes hmd hpayload).take 4 = huffman.kFileMagic ∧
    (huffman.fileBytes hmd hpayload).getD 4 0 = huffman.kFormatVersion ∧
    (lzw.fileBytes lmd lcodes).take 4 = lzw.kFileMagic ∧
    (lzw.fileBytes lmd lcodes).getD 4 0 = lzw.kFormatVersion ∧
    hbytes.take 4 = huffman.kArchiveMagic ∧
    hbytes.getD 4 0 = huffman.kFormatVersion ∧
    (hes.length < 2 ^ 32 → fromLE ((hbytes.drop 8).take 4) = hes.length) ∧
    (∃ frames : List (List Nat), frames.length = hes.length ∧
      hbytes = huffman.writeArchiveHeader hes.length ++ frames.flatten) ∧
    lbytes.take 4 = lzw.kArchiveMagic ∧
    lbytes.getD 4 0 = lzw.kFormatVersion ∧
    (les.length < 2 ^ 32 → fromLE ((lbytes.drop 8).take 4) = les.length) ∧
    (∃ frames : List (List Nat), frames.length = les.length ∧
      lbytes = lzw.writeArchiveHeader les.length ++ frames.flatten) := by
  obtain ⟨hframes, hhm, hhb⟩ :
      ∃ frames, hes.mapM huffman.writeArchiveEntry = .ok frames ∧
        hbytes = huffman.writeArchiveHeader hes.length ++ frames.flatten := by
    rw [huffman.archiveBytes] at hok
    cases hm : hes.mapM huffman.writeArchiveEntry with
    | error e => rw [hm] at hok; cases hok
    | ok frames =>
      rw [hm] at hok
      cases hok
      exact ⟨frames, rfl, rfl⟩
  obtain ⟨lframes, llm, llb⟩ :
      ∃ frames, les.mapM lzw.writeArchiveEntry = .ok frames ∧
        lbytes = lzw.writeArchiveHeader les.length ++ frames.flatten := by
    rw [lzw.archiveBytes] at lok
    cases lm : les.mapM lzw.writeArchiveEntry with
    | error e => rw [lm] at lok; cases lok
    | ok frames =>
      rw [lm] at lok
      cases lok
      exact ⟨frames, rfl, rfl⟩
  subst hhb
  subst llb
  have hheadh : huffman.writeArchiveHeader hes.length ++ hframes.flatten =
      huffman.kArchiveMagic ++ ([huffman.kFormatVersion] ++ ([0, 0, 0] ++
        (leBytes 4 hes.length ++ hframes.flatten))) := by
    rw [huffman.writeArchiveHeader]
    simp [List.append_assoc]
  have hheadl : lzw.writeArchiveHeader les.length ++ lframes.flatten =
      lzw.kArchiveMagic ++ ([lzw.kFormatVersion] ++ ([0, 0, 0] ++
        (leBytes 4 les.length ++ lframes.flatten))) := by
    rw [lzw.writeArchiveHeader]
    simp [List.append_assoc]
  have hfileh : huffman.fileBytes hmd hpayload =
      huffman.kFileMagic ++ (huffman.kFormatVersion :: ([0, 0, 0] ++
        (leBytes 8 hmd.originalSize ++ leBytes 8 hpayload.length ++
          huffman.frequencyBytes hmd ++ hpayload))) := by
    rw [huffman.fileBytes, huffman.writeFileHeader]
    simp [List.append_assoc]
  have hfilel : lzw.fileBytes lmd lcodes =
      lzw.kFileMagic ++ (lzw.kFormatVersion :: ([0, 0, 0] ++
        (leBytes 8 lmd.originalSize ++ leBytes 2 lmd.dictionarySize ++
          leBytes 8 lcodes.length ++ lcodes.flatMap (leBytes 2)))) := by
    rw [lzw.fileBytes, lzw.writeFileHeader]
    simp [List.append_assoc]
  refine ⟨?_, ?_, ?_, ?_, ?_, ?_, ?_, ⟨hframes, mapM_ok_length _ _ _ hhm, rfl⟩,
    ?_, ?_, ?_, ⟨lframes, mapM_ok_length _ _ _ llm, rfl⟩⟩
  · rw [hfileh]
    exact take_four_append _ _ rfl
  · rw [hfileh]
    exact getD_four_after _ _ _ rfl
  · rw [hfilel]
    exact take_four_append _ _ rfl
  · rw [hfilel]
    exact getD_four_after _ _ _ rfl
  · rw [hheadh]
    exact take_four_append _ _ rfl
  · rw [hheadh]
    rw [show [huffman.kFormatVersion] ++ ([0, 0, 0] ++
      (leBytes 4 hes.length ++ hframes.flatten)) = huffman.kFormatVersion ::
      ([0, 0, 0] ++ (leBytes 4 hes.length ++ hframes.flatten)) from rfl]
    exact getD_four_after _ _ _ rfl
  · intro hn
    rw [hheadh, drop_eight_parts huffman.kArchiveMagic [huffman.kFormatVersion] [0, 0, 0]
      (leBytes 4 hes.length ++ hframes.flatten) rfl rfl rfl,
      take_four_append _ _ (leBytes_length 4 _), fromLE_leBytes]
    have h232 : (256 : Nat) ^ 4 = 2 ^ 32 := by norm_num
    rw [h232]
    exact Nat.mod_eq_of_lt hn
  · rw [hheadl]
    exact take_four_append _ _ rfl
  · rw [hheadl]
    rw [show [lzw.kFormatVersion] ++ ([0, 0, 0] ++
      (leBytes 4 les.length ++ lframes.flatten)) = lzw.kFormatVersion ::
      ([0, 0, 0] ++ (leBytes 4 les.length ++ lframes.flatten)) from rfl]
    exact getD_four_after _ _ _ rfl
  · intro ln
    rw [hheadl, drop_eight_parts lzw.kArchiveMagic [lzw.kFormatVersion] [0, 0, 0]
      (leBytes 4 les.length ++ lframes.flatten) rfl rfl rfl,
      take_four_append _ _ (leBytes_length 4 _), fromLE_leBytes]
    have h232 : (256 : Nat) ^ 4 = 2 ^ 32 := by norm_num
    rw [h232]
    exact Nat.mod_eq_of_lt ln

/-- C8 witness: the theorem applied to empty containers and empty archives. -/
theorem framing_invariants_witness :
    ([] : List huffman.ArchiveEntry).length < 2 ^ 32 ∧
    (huffman.fileBytes ⟨fun _ => 0, 0⟩ []).take 4 = huffman.kFileMagic ∧
    fromLE (((huffman.writeArchiveHeader 0 ++ List.flatten []).drop 8).take 4) = 0 := by
  have h := framing_invariants_of_lt ⟨fun _ => 0, 0⟩ [] ⟨0, 0⟩ [] [] []
      (huffman.writeArchiveHeader 0 ++ List.flatten [])
      (lzw.writeArchiveHeader 0 ++ List.flatten []) rfl rfl
  exact ⟨by norm_num, h.1, h.2.2.2.2.2.2.1 (by norm_num)⟩

/-! ## Proofs: LZW decoder resize behaviour (claims C9 and C3) -/

namespace lzw

/-- `resizeTo` always yields the requested length. -/
theorem resizeTo_length (l : List Byte) (n : Nat) : (resizeTo l n).length = n := by
  simp only [resizeTo, List.length_append, List.length_take, List.length_replicate]
  omega

/-- The decoder's initial dictionary has 256 entries. -/
theorem decInitDict_length : decInitDict.length = 256 := by
  simp [decInitDict]

end lzw

/-- C9: whenever `lzw::decodeBuffer` returns a buffer, that buffer has length
exactly `metadata.originalSize`; it is the raw emitted byte stream truncated
to `originalSize`, extended with zero bytes if the stream was shorter. -/
theorem lzw_decode_length_eq_originalSize
    (md : lzw.LZWMetadata) (codes : List Nat) (out : List Byte)
    (h : lzw.decodeBuffer md codes = .ok out) :
    out.length = md.originalSize ∧
    ∃ raw : List Byte, out = raw.take md.originalSize ++
      List.replicate (md.originalSize - raw.length) (0 : Byte) := by
  rw [lzw.decodeBuffer.eq_def] at h
  split at h
  next h0 =>
    injection h with h1
    subst h1
    exact ⟨by rw [h0]; rfl, [], by simp [h0]⟩
  next h0 =>
    split at h
    next => exact Except.noConfusion h
    next c0 rest =>
      split at h
      next hc =>
        split at h
        next e heq => exact Except.noConfusion h
        next st heq =>
          split at h
          next hlen =>
            injection h with h1
            subst h1
            refine ⟨hlen, st.output, ?_⟩
            rw [← hlen]
            simp
          next hlen =>
            injection h with h1
            subst h1
            exact ⟨lzw.resizeTo_length _ _, st.output, rfl⟩
      next hc => exact Except.noConfusion h

/-- C9 witness: decoding the single code 65 with `originalSize = 1` yields a
one-byte buffer whose length equals `originalSize`. -/
theorem lzw_decode_length_witness :
    ([(65 : Byte)] : List Byte).length = (lzw.LZWMetadata.mk 1 256).originalSize :=
  (lzw_decode_length_eq_originalSize ⟨1, 256⟩ [65] [(65 : Byte)] rfl).1

/-- C3 counterexample: metadata `originalSize = 2` with the single code 65.
The decoder processes every code without an invalid-code fault, emits one
byte (fewer than `originalSize`), and then RETURNS a zero-padded buffer via
the final `resize` — it does not raise a fatal fault. -/
theorem lzw_short_output_counterexample :
    lzw.decodeBuffer ⟨2, 0⟩ [65] = .ok [(65 : Byte), 0] := rfl

/-- C3 (amended): if `lzw::decodeBuffer` processes all codes without an
invalid-code fault but has emitted fewer than `originalSize` bytes, it
returns the emitted bytes extended with zero bytes to `originalSize` (the
final `resize`); it does not fault. -/
theorem lzw_short_output_pads
    (md : lzw.LZWMetadata) (c0 : Nat) (rest : List Nat) (st : lzw.DecState)
    (h0 : md.originalSize ≠ 0) (hc : c0 < 256)
    (hrun : rest.foldlM lzw.decStep
      ⟨lzw.decInitDict, lzw.kInitialDictionarySize,
        lzw.decInitDict.getD c0 [], lzw.decInitDict.getD c0 []⟩ = .ok st)
    (hshort : st.output.length < md.originalSize) :
    lzw.decodeBuffer md (c0 :: rest) =
      .ok (st.output ++ List.replicate (md.originalSize - st.output.length) (0 : Byte)) := by
  rw [lzw.decodeBuffer, if_neg h0, if_pos (by rw [lzw.decInitDict_length]; exact hc), hrun]
  show (if st.output.length = md.originalSize then Except.ok st.output
    else Except.ok (lzw.resizeTo st.output md.originalSize)) = _
  rw [if_neg (by omega : ¬st.output.length = md.originalSize)]
  rw [lzw.resizeTo, List.take_of_length_le (by omega)]

/-- C3 witness: the amended statement applied to `originalSize = 2` and the
single code 65. -/
theorem lzw_short_output_pads_witness :
    lzw.decodeBuffer ⟨2, 0⟩ (65 :: []) =
      .ok ((lzw.DecState.mk lzw.decInitDict lzw.kInitialDictionarySize
          (lzw.decInitDict.getD 65 []) (lzw.decInitDict.getD 65 [])).output ++
        List.replicate (2 - (lzw.DecState.mk lzw.decInitDict lzw.kInitialDictionarySize
          (lzw.decInitDict.getD 65 []) (lzw.decInitDict.getD 65 [])).output.length)
          (0 : Byte)) :=
  lzw_short_output_pads ⟨2, 0⟩ 65 []
    ⟨lzw.decInitDict, lzw.kInitialDictionarySize,
      lzw.decInitDict.getD 65 [], lzw.decInitDict.getD 65 []⟩
    (by decide) (by decide) rfl (by decide)

/-! ## Proofs: LZW round-trip (claim C2) -/

namespace lzw

/-- `headD` ignores an appended element when the list is non-empty. -/
theorem headD_append_ne {α : Type} (l : List α) (x a : α) (h : l ≠ []) :
    (l ++ [x]).headD a = l.headD a := by
  cases l with
  | nil => exact absurd rfl h
  | cons y t => rfl

/-- Entry `c` of the decoder's initial dictionary, for `c < 256`. -/
theorem decInitDict_getElem (c : Nat) (h : c < 256) :
    decInitDict[c]? = some [(⟨c, h⟩ : Byte)] := by
  rw [decInitDict, List.getElem?_map]
  rw [List.getElem?_eq_getElem (by simpa using h)]
  simp [List.getElem_finRange, Fin.cast]

/-- Every entry of the decoder's initial dictionary is a singleton. -/
theorem decInitDict_entry_shape (c : Nat) (w : List Byte)
    (h : decInitDict[c]? = some w) : ∃ b : Byte, w = [b] ∧ c = b.val := by
  by_cases hc : c < 256
  · rw [decInitDict_getElem c hc] at h
    injection h with h1
    exact ⟨⟨c, hc⟩, h1.symm, rfl⟩
  · rw [List.getElem?_eq_none (by simpa [decInitDict_length] using hc)] at h
    cases h

/-- The encoder's preloaded map and the decoder's initial dictionary are the
same association of codes and strings. -/
theorem initDict_iff (w : List Byte) (c : Nat) :
    initDict w = some c ↔ decInitDict[c]? = some w := by
  constructor
  · intro h
    match w, h with
    | [b], h =>
      rw [initDict] at h
      injection h with h1
      subst h1
      exact decInitDict_getElem b.val b.isLt
  · intro h
    obtain ⟨b, rfl, rfl⟩ := decInitDict_entry_shape c w h
    rfl

/-- Extending a map-codebook pair that satisfies the lookup invariant with
one fresh string preserves the invariant. -/
theorem lookup_iff_extend (dict : List Byte → Option Nat) (full : List (List Byte))
    (x : List Byte)
    (hiff : ∀ (w : List Byte) (c : Nat), dict w = some c ↔ full[c]? = some w)
    (hx : dict x = none) (w : List Byte) (c : Nat) :
    (if w = x then some full.length else dict w) = some c ↔
      (full ++ [x])[c]? = some w := by
  by_cases hw : w = x
  · subst hw
    rw [if_pos rfl]
    constructor
    · intro h
      injection h with h1
      subst h1
      exact List.getElem?_concat_length full w
    · intro h
      rw [List.getElem?_append] at h
      by_cases hlt : c < full.length
      · rw [if_pos hlt] at h
        exact absurd ((hiff w c).mpr h) (by rw [hx]; exact Option.noConfusion)
      · rw [if_neg hlt] at h
        congr 1
        have hc : c - full.length < 1 := by
          by_contra hcon
          rw [List.getElem?_eq_none (by simp; omega)] at h
          cases h
        omega
  · rw [if_neg hw, hiff, List.getElem?_append]
    by_cases hlt : c < full.length
    · rw [if_pos hlt]
    · rw [if_neg hlt]
      constructor
      · intro h
        have := List.getElem?_eq_none (show full.length ≤ c by omega)
        rw [this] at h
        cases h
      · intro h
        by_cases hc : c - full.length < 1
        · rw [List.getElem?_eq_some_iff] at h
          obtain ⟨hlt1, hval⟩ := h
          simp at hlt1
          interval_cases hcv : c - full.length
          · simp at hval
            exact absurd hval.symm hw
        · rw [List.getElem?_eq_none (by simp; omega)] at h
          cases h

end lzw

namespace lzw

/-- `encStep` on a dictionary hit extends `current` and emits nothing. -/
theorem encStep_hit (e : EncState) (b : Byte) (c1 : Nat)
    (h : e.dict (e.current ++ [b]) = some c1) :
    encStep e b = .ok ⟨e.dict, e.nextCode, e.current ++ [b], e.codes⟩ := by
  rw [encStep, h]

/-- `encStep` on a miss below the cap: emit the code of `current`, insert
`combined`, restart `current`. -/
theorem encStep_miss_add (e : EncState) (b : Byte) (c : Nat)
    (hmiss : e.dict (e.current ++ [b]) = none) (hne : e.current ≠ [])
    (hcur : e.dict e.current = some c) (hcap : e.nextCode < kMaxDictionarySize) :
    encStep e b = .ok ⟨fun w => if w = e.current ++ [b] then some e.nextCode else e.dict w,
      e.nextCode + 1, [b], e.codes ++ [c]⟩ := by
  rw [encStep, hmiss]
  rw [if_neg hne, hcur]
  simp [hcap]

/-- `encStep` on a miss at the cap: emit, keep the dictionary frozen. -/
theorem encStep_miss_frozen (e : EncState) (b : Byte) (c : Nat)
    (hmiss : e.dict (e.current ++ [b]) = none) (hne : e.current ≠ [])
    (hcur : e.dict e.current = some c) (hcap : ¬e.nextCode < kMaxDictionarySize) :
    encStep e b = .ok ⟨e.dict, e.nextCode, [b], e.codes ++ [c]⟩ := by
  rw [encStep, hmiss]
  rw [if_neg hne, hcur]
  simp [hcap]

/-- From a coupled pair, the decoder resolves the code the encoder emits for
`current` to exactly the encoder's `current` string, emits it, and performs
the dictionary append exactly when below the cap. -/
theorem coupled_decStep (e : EncState) (d : DecState) (hc : Coupled e d) (c : Nat)
    (hcode : e.dict e.current = some c) :
    decStep d c = .ok ⟨(if d.nextCode < kMaxDictionarySize
        then d.dict ++ [d.current ++ [e.current.headD 0]] else d.dict),
      (if d.nextCode < kMaxDictionarySize then d.nextCode + 1 else d.nextCode),
      e.current, d.output ++ e.current⟩ := by
  have hfull : (fullDict e d)[c]? = some e.current := (hc.lookup_iff _ _).mp hcode
  by_cases hlt : c < d.dict.length
  · have hdc : d.dict[c]? = some e.current := by
      rw [fullDict, List.getElem?_append, if_pos hlt] at hfull
      exact hfull
    have hgd : d.dict.getD c [] = e.current := by
      rw [List.getD_eq_getElem?_getD, hdc]
      rfl
    rw [decStep, if_pos hlt, hgd]
    by_cases hcap : d.nextCode < kMaxDictionarySize
    · rw [if_pos hcap, if_pos hcap, if_pos hcap]
    · rw [if_neg hcap, if_neg hcap, if_neg hcap]
  · have hpend : e.nextCode = d.nextCode + 1 := by
      by_contra hcon
      rw [fullDict, if_neg hcon, List.append_nil] at hfull
      have := List.getElem?_eq_none (show d.dict.length ≤ c by omega)
      rw [this] at hfull
      cases hfull
    have hcind : c = d.dict.length := by
      rw [fullDict, if_pos hpend] at hfull
      by_contra hcon
      have hge : d.dict.length + 1 ≤ c := by omega
      have := List.getElem?_eq_none
        (show (d.dict ++ [d.current ++ [e.current.headD 0]]).length ≤ c by simp; omega)
      rw [this] at hfull
      cases hfull
    have hcur : e.current = d.current ++ [e.current.headD 0] := by
      rw [fullDict, if_pos hpend] at hfull
      rw [List.getElem?_append_right (by omega), hcind, Nat.sub_self] at hfull
      rw [show ([d.current ++ [e.current.headD 0]] : List (List Byte))[0]? =
        some (d.current ++ [e.current.headD 0]) from rfl] at hfull
      injection hfull with h1
      exact h1.symm
    have hhead : e.current.headD 0 = d.current.headD 0 := by
      conv => lhs; rw [hcur]
      exact headD_append_ne d.current _ 0 hc.decCur_ne
    have hdcap : d.nextCode < kMaxDictionarySize := by
      rcases hc.counters with ⟨h1, h2⟩ | ⟨h1, h2⟩
      · omega
      · exact absurd hpend (by omega)
    rw [decStep, if_neg hlt, if_pos (by rw [hcind, hc.len_eq])]
    rw [if_pos hdcap, if_pos hdcap, if_pos hdcap]
    have hentry : d.current ++ [d.current.headD 0] = e.current := by
      rw [← hhead, ← hcur]
    rw [hentry]

end lzw

namespace lzw

/-- A single byte is never the `combined` string of a miss. -/
theorem single_ne_combined (e : EncState) (b0 b : Byte) (hne : e.current ≠ []) :
    ([b0] : List Byte) ≠ e.current ++ [b] := by
  intro heq
  have hlen := congrArg List.length heq
  simp only [List.length_singleton, List.length_append] at hlen
  have hz : e.current.length = 0 := by omega
  exact hne (List.length_eq_zero.mp hz)

/-- Forward simulation: from a coupled encoder/decoder pair, running the
encoder over any remaining input succeeds, and running the decoder over
exactly the newly emitted codes reproduces, together with the encoder's
pending `current`, the bytes consumed — ending in a coupled pair again. -/
theorem encode_decode_sim :
    ∀ (input : List Byte) (e : EncState) (d : DecState), Coupled e d →
      ∃ (e1 : EncState) (tail : List Nat) (d1 : DecState),
        input.foldlM encStep e = .ok e1 ∧
        e1.codes = e.codes ++ tail ∧
        tail.foldlM decStep d = .ok d1 ∧
        Coupled e1 d1 ∧
        d1.output ++ e1.current = d.output ++ e.current ++ input := by
  intro input
  induction input with
  | nil =>
    intro e d hc
    exact ⟨e, [], d, rfl, by simp, rfl, hc, by simp⟩
  | cons b rest ih =>
    intro e d hc
    cases hhit : e.dict (e.current ++ [b]) with
    | some c1 =>
      have hstep := encStep_hit e b c1 hhit
      have hc2 : Coupled ⟨e.dict, e.nextCode, e.current ++ [b], e.codes⟩ d := by
        have hfd : fullDict ⟨e.dict, e.nextCode, e.current ++ [b], e.codes⟩ d =
            fullDict e d := by
          rw [fullDict, fullDict]
          rw [show ((⟨e.dict, e.nextCode, e.current ++ [b], e.codes⟩ : EncState).current).headD
            (0 : Byte) = e.current.headD 0 from headD_append_ne e.current b 0 hc.encCur_ne]
        refine ⟨by simp, hc.decCur_ne, hc.dictD_ne, hc.len_eq, hc.counters, ?_,
          hc.singles, ⟨c1, hhit⟩⟩
        intro w c
        rw [hfd]
        exact hc.lookup_iff w c
      obtain ⟨e1, tail, d1, hfold, hcodes, hdec, hcoup, hout⟩ := ih _ d hc2
      refine ⟨e1, tail, d1, ?_, hcodes, hdec, hcoup, ?_⟩
      · rw [List.foldlM_cons, hstep]
        exact hfold
      · rw [hout]
        simp
    | none =>
      obtain ⟨c, hcur⟩ := hc.cur_mem
      have hdstep := coupled_decStep e d hc c hcur
      by_cases hcap : e.nextCode < kMaxDictionarySize
      · -- encoder inserts; from the counters this is the one-pending case
        have hA : e.nextCode = d.nextCode + 1 := by
          rcases hc.counters with ⟨h1, _⟩ | ⟨h1, _⟩
          · exact h1
          · exact absurd h1 (by omega)
        have hdcap : d.nextCode < kMaxDictionarySize := by omega
        have hstep := encStep_miss_add e b c hhit hc.encCur_ne hcur hcap
        have hdstep2 : decStep d c =
            .ok ⟨d.dict ++ [d.current ++ [e.current.headD 0]], d.nextCode + 1,
              e.current, d.output ++ e.current⟩ := by
          rw [hdstep, if_pos hdcap, if_pos hdcap]
        have hfde : fullDict e d = d.dict ++ [d.current ++ [e.current.headD 0]] := by
          rw [fullDict, if_pos hA]
        have hlenfull : (fullDict e d).length = e.nextCode := by
          rw [hfde]
          simp [hc.len_eq]
          omega
        have hcE : Coupled
            ⟨fun w => if w = e.current ++ [b] then some e.nextCode else e.dict w,
              e.nextCode + 1, [b], e.codes ++ [c]⟩
            ⟨d.dict ++ [d.current ++ [e.current.headD 0]], d.nextCode + 1,
              e.current, d.output ++ e.current⟩ := by
        -- fullDict of the new pair is the old codebook extended by `combined`
          have hfdE : fullDict
              ⟨fun w => if w = e.current ++ [b] then some e.nextCode else e.dict w,
                e.nextCode + 1, [b], e.codes ++ [c]⟩
              ⟨d.dict ++ [d.current ++ [e.current.headD 0]], d.nextCode + 1,
                e.current, d.output ++ e.current⟩ =
              fullDict e d ++ [e.current ++ [b]] := by
            rw [fullDict, if_pos (show e.nextCode + 1 = (d.nextCode + 1) + 1 by omega)]
            rw [hfde]
            rfl
          refine ⟨by simp, hc.encCur_ne, ?_, by simp [hc.len_eq], ?_, ?_, ?_, ?_⟩
          · intro w hw
            rcases List.mem_append.mp hw with hw1 | hw1
            · exact hc.dictD_ne w hw1
            · rw [List.mem_singleton] at hw1
              subst hw1
              simp
          · left
            refine ⟨?_, ?_⟩
            · show e.nextCode + 1 = (d.nextCode + 1) + 1
              omega
            · show e.nextCode + 1 ≤ kMaxDictionarySize
              omega
          · intro w c2
            rw [hfdE]
            have hext := lookup_iff_extend e.dict (fullDict e d) (e.current ++ [b])
              hc.lookup_iff hhit w c2
            rw [hlenfull] at hext
            exact hext
          · intro b0
            show (if [b0] = e.current ++ [b] then some e.nextCode else e.dict [b0]) =
              some b0.val
            rw [if_neg (single_ne_combined e b0 b hc.encCur_ne)]
            exact hc.singles b0
          · refine ⟨b.val, ?_⟩
            show (if [b] = e.current ++ [b] then some e.nextCode else e.dict [b]) =
              some b.val
            rw [if_neg (single_ne_combined e b b hc.encCur_ne)]
            exact hc.singles b
        obtain ⟨e1, tail, d1, hfold, hcodes, hdec, hcoup, hout⟩ := ih _ _ hcE
        refine ⟨e1, c :: tail, d1, ?_, ?_, ?_, hcoup, ?_⟩
        · rw [List.foldlM_cons, hstep]
          exact hfold
        · rw [hcodes]
          simp
        · rw [List.foldlM_cons, hdstep2]
          exact hdec
        · rw [hout]
          simp
      · -- encoder frozen at the cap
        have hBnext : e.nextCode = kMaxDictionarySize := by
          rcases hc.counters with ⟨_, h2⟩ | ⟨h1, _⟩
          · omega
          · exact h1
        have hstep := encStep_miss_frozen e b c hhit hc.encCur_ne hcur hcap
        by_cases hdcap : d.nextCode < kMaxDictionarySize
        · -- decoder performs its last append and reaches the cap too
          have hA : e.nextCode = d.nextCode + 1 := by
            rcases hc.counters with ⟨h1, _⟩ | ⟨_, h2⟩
            · exact h1
            · exact absurd h2 (by omega)
          have hdstep2 : decStep d c =
              .ok ⟨d.dict ++ [d.current ++ [e.current.headD 0]], d.nextCode + 1,
                e.current, d.output ++ e.current⟩ := by
            rw [hdstep, if_pos hdcap, if_pos hdcap]
          have hfde : fullDict e d = d.dict ++ [d.current ++ [e.current.headD 0]] := by
            rw [fullDict, if_pos hA]
          have hcE : Coupled ⟨e.dict, e.nextCode, [b], e.codes ++ [c]⟩
              ⟨d.dict ++ [d.current ++ [e.current.headD 0]], d.nextCode + 1,
                e.current, d.output ++ e.current⟩ := by
            have hfdE : fullDict ⟨e.dict, e.nextCode, [b], e.codes ++ [c]⟩
                ⟨d.dict ++ [d.current ++ [e.current.headD 0]], d.nextCode + 1,
                  e.current, d.output ++ e.current⟩ = fullDict e d := by
              rw [fullDict, if_neg (show ¬e.nextCode = (d.nextCode + 1) + 1 by omega)]
              rw [hfde, List.append_nil]
            refine ⟨by simp, hc.encCur_ne, ?_, by simp [hc.len_eq], ?_, ?_,
              hc.singles, ⟨b.val, hc.singles b⟩⟩
            · intro w hw
              rcases List.mem_append.mp hw with hw1 | hw1
              · exact hc.dictD_ne w hw1
              · rw [List.mem_singleton] at hw1
                subst hw1
                simp
            · right
              refine ⟨hBnext, ?_⟩
              show d.nextCode + 1 = kMaxDictionarySize
              omega
            · intro w c2
              rw [hfdE]
              exact hc.lookup_iff w c2
          obtain ⟨e1, tail, d1, hfold, hcodes, hdec, hcoup, hout⟩ := ih _ _ hcE
          refine ⟨e1, c :: tail, d1, ?_, ?_, ?_, hcoup, ?_⟩
          · rw [List.foldlM_cons, hstep]
            exact hfold
          · rw [hcodes]
            simp
          · rw [List.foldlM_cons, hdstep2]
            exact hdec
          · rw [hout]
            simp
        · -- both frozen
          have hB : d.nextCode = kMaxDictionarySize := by
            rcases hc.counters with ⟨h1, _⟩ | ⟨_, h2⟩
            · omega
            · exact h2
          have hdstep2 : decStep d c =
              .ok ⟨d.dict, d.nextCode, e.current, d.output ++ e.current⟩ := by
            rw [hdstep, if_neg hdcap, if_neg hdcap]
          have hcE : Coupled ⟨e.dict, e.nextCode, [b], e.codes ++ [c]⟩
              ⟨d.dict, d.nextCode, e.current, d.output ++ e.current⟩ := by
            have hfdE : fullDict ⟨e.dict, e.nextCode, [b], e.codes ++ [c]⟩
                ⟨d.dict, d.nextCode, e.current, d.output ++ e.current⟩ =
                fullDict e d := by
              rw [fullDict, if_neg (show ¬e.nextCode = d.nextCode + 1 by omega)]
              rw [fullDict, if_neg (show ¬e.nextCode = d.nextCode + 1 by omega)]
            refine ⟨by simp, hc.encCur_ne, hc.dictD_ne, hc.len_eq, ?_, ?_,
              hc.singles, ⟨b.val, hc.singles b⟩⟩
            · right
              exact ⟨hBnext, hB⟩
            · intro w c2
              rw [hfdE]
              exact hc.lookup_iff w c2
          obtain ⟨e1, tail, d1, hfold, hcodes, hdec, hcoup, hout⟩ := ih _ _ hcE
          refine ⟨e1, c :: tail, d1, ?_, ?_, ?_, hcoup, ?_⟩
          · rw [List.foldlM_cons, hstep]
            exact hfold
          · rw [hcodes]
            simp
          · rw [List.foldlM_cons, hdstep2]
            exact hdec
          · rw [hout]
            simp

end lzw

namespace lzw

/-- The decoder's initial entry for the code of a byte. -/
theorem decInitDict_getD (b : Byte) : decInitDict.getD b.val [] = [b] := by
  rw [List.getD_eq_getElem?_getD, decInitDict_getElem b.val b.isLt]
  simp

/-- `decodeBuffer` on a non-empty size, an in-range first code and a decoder
run that ends with exactly `originalSize` bytes returns that output. -/
theorem decodeBuffer_assemble (md : LZWMetadata) (c0 : Nat) (rest : List Nat)
    (st : DecState) (h0 : ¬md.originalSize = 0) (hc : c0 < 256)
    (hrun : rest.foldlM decStep ⟨decInitDict, kInitialDictionarySize,
        decInitDict.getD c0 [], decInitDict.getD c0 []⟩ = .ok st)
    (hlen : st.output.length = md.originalSize) :
    decodeBuffer md (c0 :: rest) = .ok st.output := by
  rw [decodeBuffer, if_neg h0, if_pos (by rw [decInitDict_length]; exact hc), hrun]
  show (if st.output.length = md.originalSize then Except.ok st.output
    else Except.ok (resizeTo st.output md.originalSize)) = _
  rw [if_pos hlen]

/-- The coupling holds right after the encoder's first emission: the encoder
has consumed `b0 b1`, emitted the code of `[b0]`, inserted `[b0, b1]` at
code 256, and the decoder has consumed that first code. -/
theorem coupled_start (b0 b1 : Byte) :
    Coupled ⟨fun w => if w = [b0] ++ [b1] then some 256 else initDict w, 257, [b1], [b0.val]⟩
      ⟨decInitDict, kInitialDictionarySize, [b0], [b0]⟩ := by
  have hfd : fullDict
      ⟨fun w => if w = [b0] ++ [b1] then some 256 else initDict w, 257, [b1], [b0.val]⟩
      ⟨decInitDict, kInitialDictionarySize, [b0], [b0]⟩ =
      decInitDict ++ [[b0] ++ [b1]] := rfl
  refine ⟨by simp, by simp, ?_, by rw [decInitDict_length]; rfl, ?_, ?_, ?_, ?_⟩
  · intro w hw
    obtain ⟨a, _, hw2⟩ := List.mem_map.mp hw
    rw [← hw2]
    simp
  · left
    refine ⟨rfl, ?_⟩
    show (257 : Nat) ≤ kMaxDictionarySize
    decide
  · intro w c
    rw [hfd]
    have hext := lookup_iff_extend initDict decInitDict ([b0] ++ [b1]) initDict_iff rfl w c
    rw [decInitDict_length] at hext
    exact hext
  · intro b
    show (if [b] = [b0] ++ [b1] then some 256 else initDict [b]) = some b.val
    rw [if_neg (single_ne_combined ⟨initDict, 256, [b0], []⟩ b b1 (by simp))]
    rfl
  · refine ⟨b1.val, ?_⟩
    show (if [b1] = [b0] ++ [b1] then some 256 else initDict [b1]) = some b1.val
    rw [if_neg (single_ne_combined ⟨initDict, 256, [b0], []⟩ b1 b1 (by simp))]
    rfl

end lzw

/-- C2: LZW round-trip. For every byte buffer, `lzw::encodeBuffer` succeeds
and `lzw::decodeBuffer` on the resulting metadata and code sequence returns
a buffer equal to the input. -/
theorem lzw_roundtrip (input : List Byte) :
    ∃ r : lzw.CompressionResult, lzw.encodeBuffer input = .ok r ∧
      lzw.decodeBuffer r.metadata r.codes = .ok input := by
  cases input with
  | nil => exact ⟨⟨⟨0, 0⟩, []⟩, rfl, rfl⟩
  | cons b0 rest =>
    have hstep0 : lzw.encStep lzw.encInit b0 = .ok ⟨lzw.initDict, 256, [b0], []⟩ :=
      lzw.encStep_hit lzw.encInit b0 b0.val rfl
    cases rest with
    | nil =>
      refine ⟨⟨⟨1, 256⟩, [b0.val]⟩, ?_, ?_⟩
      · have hrun : ([b0] : List Byte).foldlM lzw.encStep lzw.encInit =
            .ok ⟨lzw.initDict, 256, [b0], []⟩ := by
          rw [List.foldlM_cons, hstep0]
          rfl
        rw [lzw.encodeBuffer, if_neg (by simp), hrun]
        rfl
      · have hlen : (lzw.decInitDict.getD b0.val []).length =
            (lzw.LZWMetadata.mk 1 256).originalSize := by
          rw [lzw.decInitDict_getD b0]
          rfl
        have h := lzw.decodeBuffer_assemble ⟨1, 256⟩ b0.val []
          ⟨lzw.decInitDict, lzw.kInitialDictionarySize,
            lzw.decInitDict.getD b0.val [], lzw.decInitDict.getD b0.val []⟩
          (by decide) b0.isLt rfl hlen
        rw [h]
        rw [show (lzw.DecState.mk lzw.decInitDict lzw.kInitialDictionarySize
          (lzw.decInitDict.getD b0.val []) (lzw.decInitDict.getD b0.val [])).output =
          lzw.decInitDict.getD b0.val [] from rfl]
        rw [lzw.decInitDict_getD b0]
    | cons b1 rest2 =>
      have hstep1 : lzw.encStep ⟨lzw.initDict, 256, [b0], []⟩ b1 =
          .ok ⟨fun w => if w = [b0] ++ [b1] then some 256 else lzw.initDict w,
            257, [b1], [b0.val]⟩ :=
        lzw.encStep_miss_add ⟨lzw.initDict, 256, [b0], []⟩ b1 b0.val rfl
          (show ([b0] : List Byte) ≠ [] by simp) rfl
          (show (256 : Nat) < lzw.kMaxDictionarySize by decide)
      obtain ⟨e2, tail, d2, hfold, hcodes, hdec, hcoup, hout⟩ :=
        lzw.encode_decode_sim rest2 _ _ (lzw.coupled_start b0 b1)
      obtain ⟨cf, hcf⟩ := hcoup.cur_mem
      have hdF := lzw.coupled_decStep e2 d2 hcoup cf hcf
      have hrunE : (b0 :: b1 :: rest2).foldlM lzw.encStep lzw.encInit = .ok e2 := by
        rw [List.foldlM_cons, hstep0]
        show (b1 :: rest2).foldlM lzw.encStep ⟨lzw.initDict, 256, [b0], []⟩ = .ok e2
        rw [List.foldlM_cons, hstep1]
        exact hfold
      have houtF : d2.output ++ e2.current = b0 :: b1 :: rest2 := by
        rw [hout]
        simp
      refine ⟨⟨⟨(b0 :: b1 :: rest2).length, e2.nextCode⟩, e2.codes ++ [cf]⟩, ?_, ?_⟩
      · rw [lzw.encodeBuffer, if_neg (by simp), hrunE]
        show (if e2.current = [] then
            Except.ok (lzw.CompressionResult.mk
              (lzw.LZWMetadata.mk (b0 :: b1 :: rest2).length e2.nextCode) e2.codes)
          else match e2.dict e2.current with
            | none => Except.error "LZW encoder dictionary lookup failed"
            | some c => Except.ok (lzw.CompressionResult.mk
                (lzw.LZWMetadata.mk (b0 :: b1 :: rest2).length e2.nextCode)
                (e2.codes ++ [c]))) = _
        rw [if_neg hcoup.encCur_ne, hcf]
      · have hcodes2 : e2.codes ++ [cf] = b0.val :: (tail ++ [cf]) := by
          rw [hcodes]
          simp
        have hrunD : (tail ++ [cf]).foldlM lzw.decStep
            ⟨lzw.decInitDict, lzw.kInitialDictionarySize,
              lzw.decInitDict.getD b0.val [], lzw.decInitDict.getD b0.val []⟩ =
            .ok ⟨(if d2.nextCode < lzw.kMaxDictionarySize
                then d2.dict ++ [d2.current ++ [e2.current.headD 0]] else d2.dict),
              (if d2.nextCode < lzw.kMaxDictionarySize then d2.nextCode + 1
                else d2.nextCode),
              e2.current, d2.output ++ e2.current⟩ := by
          rw [lzw.decInitDict_getD b0, List.foldlM_append, hdec]
          show ([cf] : List Nat).foldlM lzw.decStep d2 = _
          rw [List.foldlM_cons, hdF]
          rfl
        have hlenF : (d2.output ++ e2.current).length = (b0 :: b1 :: rest2).length := by
          rw [houtF]
        have h := lzw.decodeBuffer_assemble
          ⟨(b0 :: b1 :: rest2).length, e2.nextCode⟩ b0.val (tail ++ [cf]) _
          (by simp) b0.isLt hrunD hlenF
        rw [show (lzw.CompressionResult.mk
          ⟨(b0 :: b1 :: rest2).length, e2.nextCode⟩ (e2.codes ++ [cf])).codes =
          e2.codes ++ [cf] from rfl, hcodes2, h]
        exact congrArg Except.ok houtF

/-! ## Proofs: Huffman codec (claims C1, C5, C7, C10) -/

namespace huffman

/-- Membership in the queue after an insertion. -/
theorem mem_insertQueue (u t : HTree) (l : List HTree) :
    u ∈ insertQueue t l ↔ u = t ∨ u ∈ l := by
  induction l with
  | nil => simp [insertQueue]
  | cons v rest ih =>
    simp only [insertQueue]
    by_cases h : keyLt t v = true
    · simp [h]
    · have hf : keyLt t v = false := by
        cases hkv : keyLt t v
        · rfl
        · exact absurd hkv h
      rw [if_neg (by simp [hf])]
      simp only [List.mem_cons, ih]
      tauto

/-- Membership after folding insertions. -/
theorem mem_foldl_insert (ts : List HTree) :
    ∀ (q0 : List HTree) (u : HTree),
      u ∈ ts.foldl (fun q t => insertQueue t q) q0 ↔ u ∈ q0 ∨ u ∈ ts := by
  induction ts with
  | nil => intro q0 u; simp
  | cons t rest ih =>
    intro q0 u
    simp only [List.foldl_cons, ih, mem_insertQueue, List.mem_cons]
    tauto

/-- Membership in the initial queue of `buildTree`. -/
theorem mem_buildQueue (freqs : Byte → Nat) (u : HTree) :
    u ∈ buildQueue freqs ↔ ∃ s, freqs s ≠ 0 ∧ u = HTree.leaf s (freqs s) := by
  rw [buildQueue, mem_foldl_insert]
  simp only [List.not_mem_nil, false_or, List.mem_filterMap, List.mem_finRange, true_and]
  constructor
  · rintro ⟨s, hs⟩
    by_cases h : freqs s = 0
    · rw [if_pos h] at hs
      cases hs
    · rw [if_neg h] at hs
      injection hs with hs1
      exact ⟨s, h, hs1.symm⟩
  · rintro ⟨s, h, rfl⟩
    exact ⟨s, by rw [if_neg h]⟩

/-- A non-empty queue always yields a root. -/
theorem buildLoop_ne_nil : ∀ l : List HTree, l ≠ [] → ∃ t, buildLoop l = some t := by
  intro l
  induction l using buildLoop.induct with
  | case1 => intro h; exact absurd rfl h
  | case2 t => intro _; exact ⟨t, by simp [buildLoop]⟩
  | case3 a b rest ih =>
    intro _
    rw [buildLoop]
    apply ih
    have := insertQueue_length (HTree.node (a.freqOf + b.freqOf) a b) rest
    intro hcon
    rw [hcon] at this
    simp at this

/-- The root collects exactly the symbols of the queue. -/
theorem buildLoop_syms :
    ∀ (l : List HTree) (t : HTree), buildLoop l = some t →
      ∀ s : Byte, s ∈ t.syms ↔ ∃ u ∈ l, s ∈ u.syms := by
  intro l
  induction l using buildLoop.induct with
  | case1 =>
    intro t ht
    rw [buildLoop] at ht
    cases ht
  | case2 u =>
    intro t ht s
    rw [buildLoop] at ht
    injection ht with ht1
    subst ht1
    simp
  | case3 a b rest ih =>
    intro t ht s
    rw [buildLoop] at ht
    rw [ih t ht s]
    constructor
    · rintro ⟨u, hu, hs⟩
      rw [mem_insertQueue] at hu
      rcases hu with rfl | hu
      · rw [HTree.syms, List.mem_append] at hs
        rcases hs with hs | hs
        · exact ⟨a, by simp, hs⟩
        · exact ⟨b, by simp, hs⟩
      · exact ⟨u, by simp [hu], hs⟩
    · rintro ⟨u, hu, hs⟩
      rcases List.mem_cons.mp hu with rfl | hu2
      · exact ⟨HTree.node (u.freqOf + b.freqOf) u b, (mem_insertQueue _ _ _).mpr (Or.inl rfl),
          by rw [HTree.syms, List.mem_append]; exact Or.inl hs⟩
      · rcases List.mem_cons.mp hu2 with rfl | hu3
        · exact ⟨HTree.node (a.freqOf + u.freqOf) a u, (mem_insertQueue _ _ _).mpr (Or.inl rfl),
            by rw [HTree.syms, List.mem_append]; exact Or.inr hs⟩
        · exact ⟨u, (mem_insertQueue _ _ _).mpr (Or.inr hu3), hs⟩

/-- The symbols of a built tree are the symbols with non-zero frequency. -/
theorem buildTree_syms (freqs : Byte → Nat) (t : HTree)
    (ht : buildTree freqs = some t) (s : Byte) :
    s ∈ t.syms ↔ freqs s ≠ 0 := by
  rw [buildLoop_syms (buildQueue freqs) t ht s]
  constructor
  · rintro ⟨u, hu, hs⟩
    obtain ⟨s2, h2, rfl⟩ := (mem_buildQueue freqs u).mp hu
    rw [HTree.syms, List.mem_singleton] at hs
    subst hs
    exact h2
  · intro h
    exact ⟨HTree.leaf s (freqs s), (mem_buildQueue freqs _).mpr ⟨s, h, rfl⟩,
      by rw [HTree.syms]; simp⟩

/-- If some symbol has non-zero frequency, `buildTree` yields a root. -/
theorem buildTree_some (freqs : Byte → Nat) (s : Byte) (h : freqs s ≠ 0) :
    ∃ t, buildTree freqs = some t := by
  apply buildLoop_ne_nil
  intro hcon
  have : HTree.leaf s (freqs s) ∈ buildQueue freqs :=
    (mem_buildQueue freqs _).mpr ⟨s, h, rfl⟩
  rw [hcon] at this
  cases this

/-- A code table lookup succeeds exactly for symbols of the tree. -/
theorem lookup_buildCodeTable_isSome (t : HTree) :
    ∀ (pre : List Bool) (s : Byte),
      (((buildCodeTable t pre).lookup s).isSome ↔ s ∈ t.syms) := by
  induction t with
  | leaf s0 f =>
    intro pre s
    rw [buildCodeTable, HTree.syms]
    by_cases h : s = s0
    · subst h
      simp [List.lookup_cons]
    · have hbeq : (s == s0) = false := beq_eq_false_iff_ne.mpr h
      rw [List.lookup_cons, hbeq]
      simp [h]
  | node f l r ihl ihr =>
    intro pre s
    rw [buildCodeTable, HTree.syms, List.lookup_append]
    rw [List.mem_append, ← ihl (pre ++ [false]) s, ← ihr (pre ++ [true]) s]
    cases hl : (buildCodeTable l (pre ++ [false])).lookup s <;>
      cases hr : (buildCodeTable r (pre ++ [true])).lookup s <;>
        simp [Option.or]

/-- Every stored code is non-empty. -/
theorem lookup_buildCodeTable_ne_nil (t : HTree) :
    ∀ (pre : List Bool) (s : Byte) (p : List Bool),
      (buildCodeTable t pre).lookup s = some p → p ≠ [] := by
  induction t with
  | leaf s0 f =>
    intro pre s p h
    rw [buildCodeTable] at h
    rw [List.lookup_cons] at h
    cases hbeq : s == s0
    · rw [hbeq] at h
      cases h
    · rw [hbeq] at h
      injection h with h1
      subst h1
      by_cases hpre : pre.isEmpty
      · simp [hpre]
      · rw [if_neg hpre]
        intro hcon
        subst hcon
        simp at hpre
  | node f l r ihl ihr =>
    intro pre s p h
    rw [buildCodeTable, List.lookup_append] at h
    cases hl : (buildCodeTable l (pre ++ [false])).lookup s with
    | some pl =>
      rw [hl] at h
      injection h with h1
      subst h1
      exact ihl _ s pl hl
    | none =>
      rw [hl] at h
      simp only [Option.or] at h
      exact ihr _ s p h

/-- Lemma A: a stored code is the prefix followed by a path that walks from
the subtree root to the leaf carrying the symbol. -/
theorem lookup_buildCodeTable_path (t : HTree) :
    ∀ (pre : List Bool) (s : Byte) (p : List Bool), pre ≠ [] →
      (buildCodeTable t pre).lookup s = some p →
      ∃ q, p = pre ++ q ∧ ∃ fc, followPath t q = some (.leaf s fc) := by
  induction t with
  | leaf s0 f =>
    intro pre s p hpre h
    rw [buildCodeTable, List.lookup_cons] at h
    cases hbeq : s == s0
    · rw [hbeq] at h
      cases h
    · rw [hbeq] at h
      injection h with h1
      have hs : s = s0 := by
        have := (beq_iff_eq (a := s) (b := s0)).mp hbeq
        exact this
      subst hs
      rw [if_neg (by simpa using hpre)] at h1
      subst h1
      exact ⟨[], by simp, f, rfl⟩
  | node f l r ihl ihr =>
    intro pre s p hpre h
    rw [buildCodeTable, List.lookup_append] at h
    cases hl : (buildCodeTable l (pre ++ [false])).lookup s with
    | some pl =>
      rw [hl] at h
      simp only [Option.or] at h
      injection h with h1
      subst h1
      obtain ⟨q, hq, fc, hf⟩ := ihl (pre ++ [false]) s pl (by simp) hl
      refine ⟨false :: q, by rw [hq]; simp, fc, ?_⟩
      rw [followPath]
      exact hf
    | none =>
      rw [hl] at h
      simp only [Option.or] at h
      obtain ⟨q, hq, fc, hf⟩ := ihr (pre ++ [true]) s p (by simp) h
      refine ⟨true :: q, by rw [hq]; simp, fc, ?_⟩
      rw [followPath]
      exact hf

/-- Lemma A at the root of an internal tree. -/
theorem codeOf_path (f : Nat) (l r : HTree) (s : Byte)
    (hs : s ∈ (HTree.node f l r).syms) :
    ∃ p, (buildCodeTable (HTree.node f l r) []).lookup s = some p ∧ p ≠ [] ∧
      ∃ fc, followPath (HTree.node f l r) p = some (.leaf s fc) := by
  have hsome := (lookup_buildCodeTable_isSome (HTree.node f l r) [] s).mpr hs
  obtain ⟨p, hp⟩ := Option.isSome_iff_exists.mp hsome
  refine ⟨p, hp, lookup_buildCodeTable_ne_nil _ [] s p hp, ?_⟩
  rw [buildCodeTable, List.lookup_append] at hp
  cases hl : (buildCodeTable l ([] ++ [false])).lookup s with
  | some pl =>
    rw [hl] at hp
    simp only [Option.or] at hp
    injection hp with hp1
    subst hp1
    obtain ⟨q, hq, fc, hf⟩ := lookup_buildCodeTable_path l ([] ++ [false]) s pl (by simp) hl
    refine ⟨fc, ?_⟩
    rw [hq]
    exact hf
  | none =>
    rw [hl] at hp
    simp only [Option.or] at hp
    obtain ⟨q, hq, fc, hf⟩ := lookup_buildCodeTable_path r ([] ++ [true]) s p (by simp) hp
    refine ⟨fc, ?_⟩
    rw [hq]
    exact hf

/-- One decoding iteration from an internal node: read a bit, step to the
chosen child, emit and reset on a leaf, continue on an internal child. -/
theorem decodeLoop_cons_node (root : HTree) (fc0 : Nat) (cl cr : HTree)
    (b : Bool) (bits : List Bool) (n : Nat) :
    decodeLoop root (.node fc0 cl cr) (b :: bits) (n + 1) =
      match (if b then cr else cl) with
      | .leaf s _ => (decodeLoop root root bits n).map (fun out => s :: out)
      | .node f2 l2 r2 => decodeLoop root (.node f2 l2 r2) bits (n + 1) := by
  rw [decodeLoop.eq_def]

/-- Lemma B: walking the decoder along a root-to-leaf path emits that leaf's
symbol and resets to the root, leaving the remaining bits untouched. -/
theorem decodeLoop_path (root : HTree) :
    ∀ (q : List Bool) (fc0 : Nat) (cl cr : HTree) (s : Byte) (fs : Nat)
      (rest : List Bool) (n : Nat),
      followPath (.node fc0 cl cr) q = some (.leaf s fs) →
      decodeLoop root (.node fc0 cl cr) (q ++ rest) (n + 1) =
        (decodeLoop root root rest n).map (fun out => s :: out) := by
  intro q
  induction q with
  | nil =>
    intro fc0 cl cr s fs rest n hf
    rw [followPath] at hf
    cases hf
  | cons b q ih =>
    intro fc0 cl cr s fs rest n hf
    rw [followPath] at hf
    rw [List.cons_append, decodeLoop_cons_node]
    cases hchild : (if b then cr else cl) with
    | leaf s2 f2 =>
      rw [hchild] at hf
      cases q with
      | nil =>
        rw [followPath] at hf
        injection hf with hf1
        injection hf1 with hs _
        subst hs
        rfl
      | cons b2 q2 =>
        rw [followPath] at hf
        cases hf
    | node f2 l2 r2 =>
      rw [hchild] at hf
      exact ih f2 l2 r2 s fs rest n hf

/-- With zero symbols still needed, the decoding loop stops at once. -/
theorem decodeLoop_zero (root cur : HTree) (bits : List Bool) :
    decodeLoop root cur bits 0 = .ok [] := by
  rw [decodeLoop.eq_def]
  cases bits with
  | nil => rfl
  | cons b bs => rfl

/-- Lemma C: decoding the concatenated codes of a byte list (over any bit
suffix) emits exactly that list when every byte's code is a path to its
leaf. -/
theorem decodeLoop_concat (f : Nat) (l r : HTree) :
    ∀ (input : List Byte) (rest : List Bool),
      (∀ b ∈ input, ∃ p, (buildCodeTable (HTree.node f l r) []).lookup b = some p ∧
        ∃ fc, followPath (HTree.node f l r) p = some (.leaf b fc)) →
      decodeLoop (HTree.node f l r) (HTree.node f l r)
        (input.flatMap (codeOf (HTree.node f l r)) ++ rest) input.length = .ok input := by
  intro input
  induction input with
  | nil =>
    intro rest _
    simp only [List.flatMap_nil, List.nil_append, List.length_nil]
    exact decodeLoop_zero _ _ rest
  | cons b input ih =>
    intro rest hall
    obtain ⟨p, hp, fc, hf⟩ := hall b (by simp)
    have hcodeOf : codeOf (HTree.node f l r) b = p := by
      rw [codeOf, hp]
      rfl
    rw [List.flatMap_cons, hcodeOf, List.append_assoc,
      show (b :: input).length = input.length + 1 from rfl]
    rw [decodeLoop_path (HTree.node f l r) p f l r b fc _ input.length hf]
    rw [ih rest (fun y hy => hall y (by simp [hy]))]
    rfl

/-- The encoding loop of `encodeBuffer` is a single `writeCode` of the
concatenated codes when every input byte has a non-empty code. -/
theorem foldlM_encodeStep (root : HTree) :
    ∀ (input : List Byte) (w : BitWriter),
      (∀ x ∈ input, codeOf root x ≠ []) →
      input.foldlM (encodeStep root) w =
        .ok (w.writeCode (input.flatMap (codeOf root))) := by
  intro input
  induction input with
  | nil => intro w _; rfl
  | cons x input ih =>
    intro w hall
    have hx := hall x (by simp)
    rw [List.foldlM_cons]
    have hstep : encodeStep root w x = .ok (w.writeCode (codeOf root x)) := by
      rw [encodeStep, if_neg (by simp only [List.isEmpty_iff]; exact hx)]
    rw [hstep]
    show input.foldlM (encodeStep root) (w.writeCode (codeOf root x)) = _
    rw [ih _ (fun y hy => hall y (by simp [hy]))]
    rw [List.flatMap_cons]
    rw [show BitWriter.writeCode w (codeOf root x ++ input.flatMap (codeOf root)) =
      BitWriter.writeCode (BitWriter.writeCode w (codeOf root x))
        (input.flatMap (codeOf root)) from by
      rw [BitWriter.writeCode, BitWriter.writeCode, BitWriter.writeCode, List.foldl_append]]

/-- Characterization of a successful `encodeBuffer` run. -/
theorem encodeBuffer_char (input : List Byte) (root : HTree)
    (hne : input ≠ [])
    (hroot : buildTree (frequencyTable input) = some root)
    (hcodes : ∀ x ∈ input, codeOf root x ≠ []) :
    encodeBuffer input = .ok ⟨⟨frequencyTable input, input.length⟩,
      BitWriter.finish (BitWriter.writeCode BitWriter.init
        (input.flatMap (codeOf root)))⟩ := by
  rw [encodeBuffer, if_neg hne, hroot]
  show (input.foldlM (encodeStep root) BitWriter.init).map
      (fun w => CompressionResult.mk
        (HuffmanMetadata.mk (frequencyTable input) input.length) w.finish) = _
  rw [foldlM_encodeStep root input BitWriter.init hcodes]
  rfl

/-- `decodeBuffer` on a single-leaf root: `originalSize` copies of the
symbol, regardless of the payload. -/
theorem decodeBuffer_leaf (md : HuffmanMetadata) (payload : List Nat) (s : Byte)
    (fs : Nat) (h0 : ¬md.originalSize = 0)
    (hroot : buildTree md.frequencies = some (.leaf s fs)) :
    decodeBuffer md payload = .ok (List.replicate md.originalSize s) := by
  rw [decodeBuffer, if_neg h0, hroot]

/-- `decodeBuffer` on an internal root walks the unpacked payload bits. -/
theorem decodeBuffer_node (md : HuffmanMetadata) (payload : List Nat) (f : Nat)
    (l r : HTree) (h0 : ¬md.originalSize = 0)
    (hroot : buildTree md.frequencies = some (.node f l r)) :
    decodeBuffer md payload =
      decodeLoop (.node f l r) (.node f l r) (unpackBytes payload) md.originalSize := by
  rw [decodeBuffer, if_neg h0, hroot]

/-- Under the `uint32_t` bound, a frequency entry is non-zero exactly for
bytes occurring in the input. -/
theorem frequencyTable_ne_zero (input : List Byte)
    (hbound : ∀ s : Byte, input.count s < 2 ^ 32) (s : Byte) :
    frequencyTable input s ≠ 0 ↔ s ∈ input := by
  show input.count s % 2 ^ 32 ≠ 0 ↔ s ∈ input
  rw [Nat.mod_eq_of_lt (hbound s)]
  constructor
  · intro h
    exact List.count_pos_iff.mp (by omega)
  · intro h
    have := List.count_pos_iff.mpr h
    omega

/-- A symbol with non-zero frequency has a non-empty code table entry. -/
theorem codeOf_ne_nil_of_mem (freqs : Byte → Nat) (root : HTree)
    (hroot : buildTree freqs = some root) (x : Byte) (hx : freqs x ≠ 0) :
    codeOf root x ≠ [] := by
  have hs : x ∈ root.syms := (buildTree_syms freqs root hroot x).mpr hx
  have hsome := (lookup_buildCodeTable_isSome root [] x).mpr hs
  obtain ⟨p, hp⟩ := Option.isSome_iff_exists.mp hsome
  rw [codeOf, hp]
  exact lookup_buildCodeTable_ne_nil root [] x p hp

end huffman

namespace huffman

/-- `decodeBuffer` faults on a null root with non-zero size. -/
theorem decodeBuffer_none (md : HuffmanMetadata) (payload : List Nat)
    (h0 : ¬md.originalSize = 0) (hroot : buildTree md.frequencies = none) :
    decodeBuffer md payload =
      .error "Invalid Huffman metadata: empty tree with non-zero size" := by
  rw [decodeBuffer, if_neg h0, hroot]

/-- The `uint32_t` frequency table of `2 ^ 32` copies of one byte wraps to
the all-zero table. -/
theorem frequencyTable_giant (b : Byte) :
    frequencyTable (List.replicate (2 ^ 32) b) = fun _ => 0 := by
  funext s
  show (List.replicate (2 ^ 32) b).count s % 2 ^ 32 = 0
  rw [List.count_replicate]
  by_cases h : (b == s) = true
  · rw [if_pos h]
    simp
  · rw [if_neg h]
    rfl

/-- An all-zero table builds no tree. -/
theorem buildTree_zero : buildTree (fun _ => (0 : Nat)) = none := by
  rw [buildTree, show buildQueue (fun _ => (0 : Nat)) = [] from rfl]
  simp [buildLoop]

/-- A replicate of positive length is non-empty without unfolding it. -/
theorem replicate_pow_ne_nil (b : Byte) : List.replicate (2 ^ 32) b ≠ [] := by
  intro h
  have hlen := congrArg List.length h
  rw [List.length_replicate] at hlen
  norm_num at hlen

end huffman

/-- C1 counterexample: for the 4 GiB buffer of `2 ^ 32` copies of byte 1,
every `uint32_t` frequency counter wraps to zero, `encodeBuffer` returns an
all-zero table with an empty payload, and `decodeBuffer` then faults on the
empty tree — the round trip does not return the input. -/
theorem huffman_roundtrip_counterexample :
    ∃ r : huffman.CompressionResult,
      huffman.encodeBuffer (List.replicate (2 ^ 32) (1 : Byte)) = .ok r ∧
      huffman.decodeBuffer r.metadata r.compressed ≠
        .ok (List.replicate (2 ^ 32) (1 : Byte)) := by
  have hTnoneF : huffman.buildTree
      (huffman.frequencyTable (List.replicate (2 ^ 32) (1 : Byte))) = none := by
    rw [huffman.frequencyTable_giant 1]
    exact huffman.buildTree_zero
  refine ⟨⟨⟨huffman.frequencyTable (List.replicate (2 ^ 32) (1 : Byte)), 2 ^ 32⟩, []⟩,
    ?_, ?_⟩
  · rw [huffman.encodeBuffer, if_neg (huffman.replicate_pow_ne_nil 1), hTnoneF, List.length_replicate]
  · have hdec := huffman.decodeBuffer_none
      ⟨huffman.frequencyTable (List.replicate (2 ^ 32) (1 : Byte)), 2 ^ 32⟩ []
      (by decide) hTnoneF
    intro hcon
    rw [hdec] at hcon
    exact Except.noConfusion hcon

/-- C1 (amended): for every byte buffer in which each byte value occurs
fewer than `2 ^ 32` times (so no `uint32_t` frequency counter wraps),
`huffman::encodeBuffer` succeeds and `huffman::decodeBuffer` on the
resulting metadata and payload returns the original buffer. -/
theorem huffman_roundtrip_of_counts_lt (input : List Byte)
    (hbound : ∀ s : Byte, input.count s < 2 ^ 32) :
    ∃ r : huffman.CompressionResult, huffman.encodeBuffer input = .ok r ∧
      huffman.decodeBuffer r.metadata r.compressed = .ok input := by
  by_cases hne : input = []
  · subst hne
    exact ⟨⟨⟨fun _ => 0, 0⟩, []⟩, rfl, rfl⟩
  · obtain ⟨b0, hb0⟩ := List.exists_mem_of_ne_nil input hne
    have hfreq0 : huffman.frequencyTable input b0 ≠ 0 :=
      (huffman.frequencyTable_ne_zero input hbound b0).mpr hb0
    obtain ⟨root, hroot⟩ := huffman.buildTree_some _ b0 hfreq0
    have hsyms := huffman.buildTree_syms _ root hroot
    have hcodes : ∀ x ∈ input, huffman.codeOf root x ≠ [] := fun x hx =>
      huffman.codeOf_ne_nil_of_mem _ root hroot x
        ((huffman.frequencyTable_ne_zero input hbound x).mpr hx)
    have hlen0 : ¬(huffman.HuffmanMetadata.mk (huffman.frequencyTable input)
        input.length).originalSize = 0 := by
      show ¬input.length = 0
      simpa using hne
    refine ⟨⟨⟨huffman.frequencyTable input, input.length⟩,
      huffman.BitWriter.finish (huffman.BitWriter.writeCode huffman.BitWriter.init
        (input.flatMap (huffman.codeOf root)))⟩,
      huffman.encodeBuffer_char input root hne hroot hcodes, ?_⟩
    cases root with
    | leaf s0 f0 =>
      rw [huffman.decodeBuffer_leaf _ _ s0 f0 hlen0 hroot]
      have hall : ∀ y ∈ input, y = s0 := by
        intro y hy
        have hmem : y ∈ (huffman.HTree.leaf s0 f0).syms :=
          (hsyms y).mpr ((huffman.frequencyTable_ne_zero input hbound y).mpr hy)
        rw [huffman.HTree.syms, List.mem_singleton] at hmem
        exact hmem
      exact congrArg Except.ok (List.eq_replicate_iff.mpr ⟨rfl, hall⟩).symm
    | node f l r =>
      rw [huffman.decodeBuffer_node _ _ f l r hlen0 hroot]
      rw [huffman.finish_unpack]
      apply huffman.decodeLoop_concat
      intro b hb
      have hsb : b ∈ (huffman.HTree.node f l r).syms :=
        (hsyms b).mpr ((huffman.frequencyTable_ne_zero input hbound b).mpr hb)
      obtain ⟨p, hp, _, fc, hf⟩ := huffman.codeOf_path f l r b hsb
      exact ⟨p, hp, fc, hf⟩

/-- C1 witness: the round trip on the concrete buffer `[0, 1, 1]`. -/
theorem huffman_roundtrip_witness :
    ∃ r : huffman.CompressionResult,
      huffman.encodeBuffer [(0 : Byte), 1, 1] = .ok r ∧
      huffman.decodeBuffer r.metadata r.compressed = .ok [(0 : Byte), 1, 1] :=
  huffman_roundtrip_of_counts_lt [(0 : Byte), 1, 1] (by decide)

namespace huffman

/-- The counts of all 256 byte values sum to the buffer length. -/
theorem sum_count_eq_length (input : List Byte) :
    (∑ s : Byte, input.count s) = input.length := by
  induction input with
  | nil => simp
  | cons b tl ih =>
    have hcc : ∀ s : Byte, (b :: tl).count s = tl.count s + if b = s then 1 else 0 := by
      intro s
      rw [List.count_cons]
      simp [beq_iff_eq]
    rw [Finset.sum_congr rfl (fun s _ => hcc s), Finset.sum_add_distrib, ih]
    simp [Finset.sum_ite_eq]

end huffman

/-- C5 counterexample: for the buffer of `2 ^ 32` copies of byte 0, every
`uint32_t` frequency counter wraps to zero: the produced metadata has an
all-zero table whose sum is 0 while `originalSize = 2 ^ 32 ≠ 0`, violating
both halves of the invariant. -/
theorem huffman_metadata_counterexample :
    ∃ r : huffman.CompressionResult,
      huffman.encodeBuffer (List.replicate (2 ^ 32) (0 : Byte)) = .ok r ∧
      (∑ s : Byte, r.metadata.frequencies s) ≠ r.metadata.originalSize ∧
      (∀ s : Byte, r.metadata.frequencies s = 0) ∧
      r.metadata.originalSize ≠ 0 := by
  have hF : huffman.frequencyTable (List.replicate (2 ^ 32) (0 : Byte)) =
      fun _ => 0 := huffman.frequencyTable_giant 0
  have hTnoneF : huffman.buildTree
      (huffman.frequencyTable (List.replicate (2 ^ 32) (0 : Byte))) = none := by
    rw [hF]
    exact huffman.buildTree_zero
  refine ⟨⟨⟨fun _ => 0, 2 ^ 32⟩, []⟩, ?_, ?_, ?_, ?_⟩
  · rw [huffman.encodeBuffer, if_neg (huffman.replicate_pow_ne_nil 0), hTnoneF,
      List.length_replicate, hF]
  · show (∑ s : Byte, (fun _ : Byte => (0 : Nat)) s) ≠ 2 ^ 32
    simp
  · intro s
    rfl
  · show (2 : Nat) ^ 32 ≠ 0
    norm_num

/-- C5 (amended): for every input buffer in which each byte value occurs
fewer than `2 ^ 32` times, the metadata `huffman::encodeBuffer` produces
satisfies `sum(frequencies) = originalSize`, and its table is all-zero iff
`originalSize = 0`. -/
theorem huffman_metadata_invariant_of_counts_lt (input : List Byte)
    (hbound : ∀ s : Byte, input.count s < 2 ^ 32) :
    ∃ r : huffman.CompressionResult, huffman.encodeBuffer input = .ok r ∧
      (∑ s : Byte, r.metadata.frequencies s) = r.metadata.originalSize ∧
      ((∀ s : Byte, r.metadata.frequencies s = 0) ↔ r.metadata.originalSize = 0) := by
  have hsum : (∑ s : Byte, huffman.frequencyTable input s) = input.length := by
    rw [Finset.sum_congr rfl
      (fun s _ => show huffman.frequencyTable input s = input.count s from
        Nat.mod_eq_of_lt (hbound s))]
    exact huffman.sum_count_eq_length input
  by_cases hne : input = []
  · subst hne
    exact ⟨⟨⟨fun _ => 0, 0⟩, []⟩, rfl, by simp, by simp⟩
  · obtain ⟨b0, hb0⟩ := List.exists_mem_of_ne_nil input hne
    have hfreq0 : huffman.frequencyTable input b0 ≠ 0 :=
      (huffman.frequencyTable_ne_zero input hbound b0).mpr hb0
    obtain ⟨root, hroot⟩ := huffman.buildTree_some _ b0 hfreq0
    have hcodes : ∀ x ∈ input, huffman.codeOf root x ≠ [] := fun x hx =>
      huffman.codeOf_ne_nil_of_mem _ root hroot x
        ((huffman.frequencyTable_ne_zero input hbound x).mpr hx)
    refine ⟨_, huffman.encodeBuffer_char input root hne hroot hcodes, ?_, ?_⟩
    · exact hsum
    · show (∀ s : Byte, huffman.frequencyTable input s = 0) ↔ input.length = 0
      exact iff_of_false (fun hall => hfreq0 (hall b0)) (by simpa using hne)

/-- C5 witness: the invariant for the concrete buffer `[2, 3]`. -/
theorem huffman_metadata_invariant_witness :
    ∃ r : huffman.CompressionResult,
      huffman.encodeBuffer [(2 : Byte), 3] = .ok r ∧
      (∑ s : Byte, r.metadata.frequencies s) = r.metadata.originalSize := by
  obtain ⟨r, h1, h2, _⟩ := huffman_metadata_invariant_of_counts_lt [(2 : Byte), 3]
    (by decide)
  exact ⟨r, h1, h2⟩

namespace huffman

/-- Byte length of a finished writer run: one byte per eight bits, rounded
up. -/
theorem finish_length (s : List Bool) :
    (BitWriter.finish (BitWriter.writeCode BitWriter.init s)).length =
      (s.length + 7) / 8 := by
  have hu := congrArg List.length (finish_unpack s)
  rw [length_unpackBytes, List.length_append, List.length_replicate] at hu
  omega

/-- The frequency table of `N` copies of one byte, below the `uint32_t`
wrap. -/
theorem frequencyTable_replicate_lt (b : Byte) (N : Nat) (hN : N < 2 ^ 32) :
    frequencyTable (List.replicate N b) = fun s => if s = b then N else 0 := by
  funext s
  show (List.replicate N b).count s % 2 ^ 32 = if s = b then N else 0
  rw [List.count_replicate]
  by_cases h : (b == s) = true
  · rw [if_pos h, if_pos (beq_iff_eq.mp h).symm]
    exact Nat.mod_eq_of_lt hN
  · rw [if_neg h, if_neg (fun hc : s = b => h (beq_iff_eq.mpr hc.symm))]
    exact Nat.zero_mod _

/-- A `filterMap` over a duplicate-free list whose function hits exactly
one element yields the singleton of its value. -/
theorem filterMap_eq_singleton {α β : Type} (f : α → Option β) (v : β) (b : α)
    (hb : f b = some v) :
    ∀ (l : List α), b ∈ l → l.Nodup →
      (∀ a ∈ l, a ≠ b → f a = none) → l.filterMap f = [v] := by
  intro l
  induction l with
  | nil =>
    intro hmem _ _
    exact absurd hmem (List.not_mem_nil b)
  | cons x xs ih =>
    intro hmem hnd hothers
    rcases List.mem_cons.mp hmem with hxb | hmem2
    · subst hxb
      rw [List.filterMap_cons, hb]
      have hxs : xs.filterMap f = [] := by
        rw [List.filterMap_eq_nil_iff]
        intro a ha
        refine hothers a (List.mem_cons_of_mem _ ha) (fun hab => ?_)
        rw [hab] at ha
        exact (List.nodup_cons.mp hnd).1 ha
      show v :: xs.filterMap f = [v]
      rw [hxs]
    · have hx : x ≠ b := by
        intro hc
        subst hc
        exact (List.nodup_cons.mp hnd).1 hmem2
      rw [List.filterMap_cons, hothers x (List.mem_cons_self x xs) hx]
      show xs.filterMap f = [v]
      exact ih hmem2 (List.nodup_cons.mp hnd).2
        (fun a ha hab => hothers a (List.mem_cons_of_mem _ ha) hab)

/-- The initial queue for a one-symbol table is the single leaf. -/
theorem buildQueue_single (b : Byte) (N : Nat) (hN : N ≠ 0) :
    buildQueue (fun s => if s = b then N else 0) = [HTree.leaf b N] := by
  have hfm : ((List.finRange 256).filterMap fun s =>
      if (if s = b then N else 0) = 0 then none
      else some (HTree.leaf s (if s = b then N else 0))) = [HTree.leaf b N] :=
    filterMap_eq_singleton _ (HTree.leaf b N) b
      (by simp [hN]) (List.finRange 256) (List.mem_finRange b)
      (List.nodup_finRange 256) (fun a _ hab => by simp [hab])
  show ((List.finRange 256).filterMap fun s =>
      if (if s = b then N else 0) = 0 then none
      else some (HTree.leaf s (if s = b then N else 0))).foldl
    (fun q t => insertQueue t q) [] = [HTree.leaf b N]
  rw [hfm]
  rfl

/-- A one-symbol table builds the single-leaf tree. -/
theorem buildTree_single (b : Byte) (N : Nat) (hN : N ≠ 0) :
    buildTree (fun s => if s = b then N else 0) = some (HTree.leaf b N) := by
  rw [buildTree, buildQueue_single b N hN]
  simp [buildLoop]

/-- The single-leaf root assigns its symbol the one-bit code `0`. -/
theorem codeOf_leaf_self (b : Byte) (fs : Nat) :
    codeOf (HTree.leaf b fs) b = [false] := by
  simp [codeOf, buildCodeTable, List.lookup]

/-- A `flatMap` whose function returns `[false]` on every element produces
one `false` per element. -/
theorem flatMap_const_single {α : Type} (g : α → List Bool) :
    ∀ (l : List α), (∀ x ∈ l, g x = [false]) →
      l.flatMap g = List.replicate l.length false := by
  intro l
  induction l with
  | nil =>
    intro _
    rfl
  | cons x xs ih =>
    intro h
    rw [List.flatMap_cons, h x (List.mem_cons_self x xs),
      ih (fun y hy => h y (List.mem_cons_of_mem _ hy))]
    rfl

end huffman

/-- C7 counterexample: for `2 ^ 32` copies of byte 2 the wrapped all-zero
table makes `encodeBuffer` return an empty payload rather than the
`(N + 7) / 8` bytes a one-bit code would pack. -/
theorem huffman_single_symbol_counterexample :
    ∃ r : huffman.CompressionResult,
      huffman.encodeBuffer (List.replicate (2 ^ 32) (2 : Byte)) = .ok r ∧
      r.compressed.length ≠ (2 ^ 32 + 7) / 8 := by
  have hF : huffman.frequencyTable (List.replicate (2 ^ 32) (2 : Byte)) =
      fun _ => 0 := huffman.frequencyTable_giant 2
  have hTnone : huffman.buildTree
      (huffman.frequencyTable (List.replicate (2 ^ 32) (2 : Byte))) = none := by
    rw [hF]
    exact huffman.buildTree_zero
  refine ⟨⟨⟨fun _ => 0, 2 ^ 32⟩, []⟩, ?_, ?_⟩
  · rw [huffman.encodeBuffer, if_neg (huffman.replicate_pow_ne_nil 2), hTnone,
      List.length_replicate, hF]
  · show ([] : List Nat).length ≠ (2 ^ 32 + 7) / 8
    norm_num

/-- C7 (amended): for every byte `b` and every `N` with `1 ≤ N < 2 ^ 32`,
the buffer of `N` copies of `b` builds the single-leaf tree, `b` receives
the one-bit code `0`, the payload packs to `(N + 7) / 8` bytes (at least
125 when `N = 1000`), and decoding returns the `N` copies from the
metadata alone, for every payload. -/
theorem huffman_single_symbol_of_lt (b : Byte) (N : Nat) (h1 : 1 ≤ N)
    (h2 : N < 2 ^ 32) :
    ∃ r : huffman.CompressionResult,
      huffman.encodeBuffer (List.replicate N b) = .ok r ∧
      huffman.buildTree (huffman.frequencyTable (List.replicate N b)) =
        some (huffman.HTree.leaf b N) ∧
      huffman.codeOf (huffman.HTree.leaf b N) b = [false] ∧
      r.compressed.length = (N + 7) / 8 ∧
      (N = 1000 → 125 ≤ r.compressed.length) ∧
      ∀ payload : List Nat,
        huffman.decodeBuffer r.metadata payload = .ok (List.replicate N b) := by
  have hN0 : N ≠ 0 := by omega
  have hft : huffman.frequencyTable (List.replicate N b) =
      fun s => if s = b then N else 0 :=
    huffman.frequencyTable_replicate_lt b N h2
  have hT : huffman.buildTree (huffman.frequencyTable (List.replicate N b)) =
      some (huffman.HTree.leaf b N) := by
    rw [hft]
    exact huffman.buildTree_single b N hN0
  have hrep_ne : List.replicate N b ≠ [] := by
    intro hc
    have hlen := congrArg List.length hc
    rw [List.length_replicate] at hlen
    exact hN0 (by simpa using hlen)
  have hcodes : ∀ x ∈ List.replicate N b,
      huffman.codeOf (huffman.HTree.leaf b N) x ≠ [] := by
    intro x hx
    rw [List.eq_of_mem_replicate hx, huffman.codeOf_leaf_self]
    simp
  have hflat : (List.replicate N b).flatMap
      (huffman.codeOf (huffman.HTree.leaf b N)) = List.replicate N false := by
    have hfc := huffman.flatMap_const_single
      (huffman.codeOf (huffman.HTree.leaf b N)) (List.replicate N b)
      (fun x hx => by rw [List.eq_of_mem_replicate hx]; exact huffman.codeOf_leaf_self b N)
    rw [hfc, List.length_replicate]
  have hchar := huffman.encodeBuffer_char (List.replicate N b)
    (huffman.HTree.leaf b N) hrep_ne hT hcodes
  refine ⟨_, hchar, hT, huffman.codeOf_leaf_self b N, ?_, ?_, ?_⟩
  · show (huffman.BitWriter.finish (huffman.BitWriter.writeCode
      huffman.BitWriter.init ((List.replicate N b).flatMap
        (huffman.codeOf (huffman.HTree.leaf b N))))).length = (N + 7) / 8
    rw [hflat, huffman.finish_length, List.length_replicate]
  · intro h1000
    show 125 ≤ (huffman.BitWriter.finish (huffman.BitWriter.writeCode
      huffman.BitWriter.init ((List.replicate N b).flatMap
        (huffman.codeOf (huffman.HTree.leaf b N))))).length
    rw [hflat, huffman.finish_length, List.length_replicate, h1000]
  · intro payload
    have hlen0 : ¬(huffman.HuffmanMetadata.mk
        (huffman.frequencyTable (List.replicate N b))
        (List.replicate N b).length).originalSize = 0 := by
      show ¬(List.replicate N b).length = 0
      rw [List.length_replicate]
      omega
    rw [huffman.decodeBuffer_leaf _ _ b N hlen0 hT]
    simp [List.length_replicate]

/-- C7 witness: the single-symbol law at nine copies of byte 90. -/
theorem huffman_single_symbol_witness :
    ∃ r : huffman.CompressionResult,
      huffman.encodeBuffer (List.replicate 9 (90 : Byte)) = .ok r ∧
      huffman.codeOf (huffman.HTree.leaf 90 9) 90 = [false] ∧
      r.compressed.length = (9 + 7) / 8 := by
  obtain ⟨r, hr1, _, hr3, hr4, _, _⟩ :=
    huffman_single_symbol_of_lt 90 9 (by norm_num) (by norm_num)
  exact ⟨r, hr1, hr3, hr4⟩

namespace huffman

/-- Frequency table of `2 ^ 32` copies of byte 0 followed by one byte 1:
the byte-0 counter wraps to zero, leaving only the entry for byte 1. -/
theorem frequencyTable_giant_plus :
    frequencyTable (List.replicate (2 ^ 32) (0 : Byte) ++ [1]) =
      fun s => if s = 1 then 1 else 0 := by
  funext s
  show (List.replicate (2 ^ 32) (0 : Byte) ++ [1]).count s % 2 ^ 32 =
    if s = 1 then 1 else 0
  rw [List.count_append, List.count_replicate]
  by_cases h : ((0 : Byte) == s) = true
  · have hs : s = 0 := (beq_iff_eq.mp h).symm
    subst hs
    rw [if_pos h]
    decide
  · rw [if_neg h]
    by_cases h1 : s = 1
    · subst h1
      decide
    · rw [if_neg h1, List.count_eq_zero.mpr (by simp [h1])]
      decide

end huffman

/-- C10 counterexample: appending one byte 1 to `2 ^ 32` copies of byte 0
wraps the byte-0 counter to zero, so byte 0 has no leaf and no code, and
`encodeBuffer` raises the fatal code-table fault on its first byte — the
branch is reachable. -/
theorem huffman_code_table_fault_reachable :
    huffman.encodeBuffer (List.replicate (2 ^ 32) (0 : Byte) ++ [1]) =
      .error "Invalid Huffman code table entry" := by
  have hne : List.replicate (2 ^ 32) (0 : Byte) ++ [1] ≠ [] := by
    intro hc
    have hlen := congrArg List.length hc
    rw [List.length_append, List.length_replicate] at hlen
    simp only [List.length_singleton, List.length_nil] at hlen
    omega
  have hT : huffman.buildTree (huffman.frequencyTable
      (List.replicate (2 ^ 32) (0 : Byte) ++ [1])) =
      some (huffman.HTree.leaf 1 1) := by
    rw [huffman.frequencyTable_giant_plus]
    exact huffman.buildTree_single 1 1 one_ne_zero
  have hsplit : List.replicate (2 ^ 32) (0 : Byte) ++ [1] =
      (0 : Byte) :: (List.replicate (2 ^ 32 - 1) (0 : Byte) ++ [1]) := by
    conv_lhs => rw [show (2 : Nat) ^ 32 = (2 ^ 32 - 1) + 1 from by norm_num]
    rw [List.replicate_succ, List.cons_append]
  have hstep : huffman.encodeStep (huffman.HTree.leaf 1 1)
      huffman.BitWriter.init 0 = .error "Invalid Huffman code table entry" := rfl
  rw [huffman.encodeBuffer, if_neg hne, hT]
  show ((List.replicate (2 ^ 32) (0 : Byte) ++ [1]).foldlM
      (huffman.encodeStep (huffman.HTree.leaf 1 1)) huffman.BitWriter.init).map
    (fun w : huffman.BitWriter => huffman.CompressionResult.mk
      (huffman.HuffmanMetadata.mk
        (huffman.frequencyTable (List.replicate (2 ^ 32) (0 : Byte) ++ [1]))
        (List.replicate (2 ^ 32) (0 : Byte) ++ [1]).length) w.finish) = _
  rw [hsplit, List.foldlM_cons, hstep]
  rfl

/-- C10 (amended): for every non-empty buffer in which each byte value
occurs fewer than `2 ^ 32` times, the fatal code-table branch of
`encodeBuffer` is unreachable: encoding succeeds and never returns the
code-table fault. -/
theorem huffman_encode_ok_of_counts_lt (input : List Byte) (hne : input ≠ [])
    (hbound : ∀ s : Byte, input.count s < 2 ^ 32) :
    (∃ r : huffman.CompressionResult, huffman.encodeBuffer input = .ok r) ∧
      huffman.encodeBuffer input ≠ .error "Invalid Huffman code table entry" := by
  obtain ⟨b0, hb0⟩ := List.exists_mem_of_ne_nil input hne
  have hfreq0 : huffman.frequencyTable input b0 ≠ 0 :=
    (huffman.frequencyTable_ne_zero input hbound b0).mpr hb0
  obtain ⟨root, hroot⟩ := huffman.buildTree_some _ b0 hfreq0
  have hcodes : ∀ x ∈ input, huffman.codeOf root x ≠ [] := fun x hx =>
    huffman.codeOf_ne_nil_of_mem _ root hroot x
      ((huffman.frequencyTable_ne_zero input hbound x).mpr hx)
  have hok := huffman.encodeBuffer_char input root hne hroot hcodes
  refine ⟨⟨_, hok⟩, ?_⟩
  intro hcon
  rw [hok] at hcon
  exact Except.noConfusion hcon

/-- C10 witness: `encodeBuffer` succeeds and avoids the code-table fault on
the concrete buffer `[0, 1]`. -/
theorem huffman_encode_ok_witness :
    (∃ r : huffman.CompressionResult,
        huffman.encodeBuffer [(0 : Byte), 1] = .ok r) ∧
      huffman.encodeBuffer [(0 : Byte), 1] ≠
        .error "Invalid Huffman code table entry" :=
  huffman_encode_ok_of_counts_lt [(0 : Byte), 1] (by simp) (by decide)
